import Mathlib

/-!
Formal model of the payload subsystem of the sql-ai-security-tool repository
(core_sql/payloads.py, core_sql/build_payload_catalog.py, core_sql/injector.py,
core_sql/payload_catalog.py).

Strings from the Python side are modelled as `List Char` where character-level
reasoning is needed (the template renderer) and as `String` elsewhere.
Python character classes (str.isspace, str.splitlines boundaries, regex \s and
\w) are modelled over their Unicode BMP members as explicit character lists;
str.lower is modelled by ASCII lowercasing (`Char.toLower`), which agrees with
Python on all characters appearing in the payload data.
-/

namespace SqlTool

/-- Characters treated as whitespace by Python str.strip / str.isspace and by
the regex class \s (Unicode BMP members). -/
def pySpaceChars : List Char :=
  ['\t', '\n', '\x0b', '\x0c', '\r', '\x1c', '\x1d', '\x1e', '\x1f', ' ',
   '\x85', '\xa0', ' ', ' ', ' ', ' ', ' ', ' ',
   ' ', ' ', ' ', ' ', ' ', ' ', ' ',
   ' ', ' ', ' ', '　']

def pySpace (c : Char) : Bool := pySpaceChars.contains c

/-- Line boundaries recognised by Python str.splitlines (with \r\n handled as
one boundary in `splitLines` below). -/
def lineBreakChars : List Char :=
  ['\n', '\r', '\x0b', '\x0c', '\x1c', '\x1d', '\x1e', '\x85', ' ', ' ']

def isLB (c : Char) : Bool := lineBreakChars.contains c

/-- Word characters of the regex class \w restricted to ASCII (the payload
patterns only contain ASCII). -/
def isWordChar (c : Char) : Bool :=
  ('a' ≤ c && c ≤ 'z') || ('A' ≤ c && c ≤ 'Z') || ('0' ≤ c && c ≤ '9') || c = '_'

def isDigitChar (c : Char) : Bool := '0' ≤ c && c ≤ '9'

def isLowerHex (c : Char) : Bool := ('0' ≤ c && c ≤ '9') || ('a' ≤ c && c ≤ 'f')

/-- `leadOf t s` means `t` is an initial segment of `s`. -/
def leadOf (t s : List Char) : Prop := ∃ v, s = t ++ v

/-- `tailPart t s` means `t` is a final segment of `s`. -/
def tailPart (t s : List Char) : Prop := ∃ u, s = u ++ t

/-- `occursIn t s` means `t` occurs contiguously inside `s`
(Python substring membership `t in s`). -/
def occursIn (t s : List Char) : Prop := ∃ u v, s = u ++ t ++ v

/-- Strip an initial segment: `stripPre p s = some r` iff `s = p ++ r`. -/
def stripPre : List Char → List Char → Option (List Char)
  | [], s => some s
  | _ :: _, [] => none
  | p :: ps, c :: cs => if p = c then stripPre ps cs else none

/-- Python substring test `pat in s` (true iff `pat` occurs in `s`). -/
def listContains (s pat : List Char) : Bool :=
  match s with
  | [] => (stripPre pat []).isSome
  | _ :: rest => (stripPre pat s).isSome || listContains rest pat

/-- Python str.replace, fuel-driven (fuel is initialised to the length of the
string; the pattern is never empty at any call site in the modelled code). -/
def replGo (pat rep : List Char) : Nat → List Char → List Char
  | _, [] => []
  | 0, s => s
  | f + 1, c :: rest =>
    match pat, stripPre pat (c :: rest) with
    | _ :: _, some s' => rep ++ replGo pat rep f s'
    | _, _ => c :: replGo pat rep f rest

def listReplace (s pat rep : List Char) : List Char := replGo pat rep s.length s

def consHead (c : Char) : List (List Char) → List (List Char)
  | [] => [[c]]
  | l :: ls => (c :: l) :: ls

/-- Python str.splitlines: split at line boundaries, treating \r\n as a single
boundary, with no trailing empty line for a terminal boundary.  Fuel-driven
(fuel is initialised to the length of the string). -/
def splitLinesGo : Nat → List Char → List (List Char)
  | _, [] => []
  | 0, _ => []
  | f + 1, c :: rest =>
    if c = '\r' then
      match rest with
      | '\n' :: r => [] :: splitLinesGo f r
      | _ => [] :: splitLinesGo f rest
    else if isLB c then [] :: splitLinesGo f rest
    else consHead c (splitLinesGo f rest)

def splitLines (s : List Char) : List (List Char) := splitLinesGo s.length s

/-- Python str.strip (both ends). -/
def pyStripL (s : List Char) : List Char := s.dropWhile pySpace

def pyStripR (s : List Char) : List Char := (s.reverse.dropWhile pySpace).reverse

def pyTrim (s : List Char) : List Char := pyStripR (pyStripL s)

def pyStrip (s : String) : String := ⟨pyTrim s.toList⟩

/-- "\n".join(...). -/
def joinNL : List (List Char) → List Char
  | [] => []
  | [l] => l
  | l :: ls => l ++ '\n' :: joinNL ls

/-- re.sub(r"\s\x7b2,\x7d", " ", s): replace every maximal run of two or more
whitespace characters by one space; a lone whitespace character is kept.
The flag records whether we are inside a run whose single space was already
emitted. -/
def collapseGo (inRun : Bool) : List Char → List Char
  | [] => []
  | c :: rest =>
    if pySpace c then
      if inRun then collapseGo true rest
      else
        match rest with
        | d :: _ => if pySpace d then ' ' :: collapseGo true rest
                    else c :: collapseGo false rest
        | [] => [c]
    else c :: collapseGo false rest

def collapseWS (s : List Char) : List Char := collapseGo false s

/-- The whitespace normalisation at the end of PayloadDB.render
(payloads.py lines 235-237). -/
def normalizeWS (s : List Char) : List Char :=
  collapseWS (joinNL ((splitLines s).map pyTrim))

/-- Decimal digits of a natural number, fuel-driven (str(int) for the
non-negative integers produced by random.randint). -/
def natDecGo : Nat → Nat → List Char → List Char
  | 0, _, acc => acc
  | f + 1, n, acc =>
    if n = 0 then acc else natDecGo f (n / 10) (Nat.digitChar (n % 10) :: acc)

def natDec (n : Nat) : List Char := if n = 0 then ['0'] else natDecGo n n []

/-- Value of a decimal digit string (int(s) for digit strings). -/
def decValueGo : Nat → List Char → Nat
  | a, [] => a
  | a, c :: r => decValueGo (10 * a + (c.toNat - 48)) r

def decValue (s : List Char) : Nat := decValueGo 0 s

/-- The bracketed placeholder token `[name]`. -/
def bracketTok (name : List Char) : List Char := '[' :: (name ++ [']'])

def rnName : List Char := "RANDNUM".toList

def rsName : List Char := "RANDSTR".toList

def ctxHasKey (ctx : List (List Char × List Char)) (k : List Char) : Bool :=
  ctx.any (fun kv => kv.1 = k)

/-- PayloadDB.render (payloads.py lines 217-238) on a non-absent template.
`ctx` is the context dict in insertion order, with values already taken
through str(). `rnum` models the one value returned by
random.randint(1000, 9999); `rhex` models uuid.uuid4().hex. -/
def render (tmpl : List Char) (ctx : List (List Char × List Char))
    (rnum : Nat) (rhex : List Char) : List Char :=
  if tmpl = [] then tmpl
  else
    let out := ctx.foldl (fun o kv => listReplace o (bracketTok kv.1) kv.2) tmpl
    let out := if listContains out (bracketTok rnName) && !ctxHasKey ctx rnName
               then listReplace out (bracketTok rnName) (natDec rnum) else out
    let out := if listContains out (bracketTok rsName) && !ctxHasKey ctx rsName
               then listReplace out (bracketTok rsName) (rhex.take 8) else out
    normalizeWS out

/-- PayloadDB.render including the absent-template case (`if not template:
return template` returns None unchanged when template is None). -/
def renderOpt (tmpl : Option (List Char)) (ctx : List (List Char × List Char))
    (rnum : Nat) (rhex : List Char) : Option (List Char) :=
  match tmpl with
  | none => none
  | some s => some (render s ctx rnum rhex)

/-! ### Regex-signature matcher

The TECH_KEYWORDS signatures are compiled pattern by pattern into a small
matcher language.  All matching is done with re.I | re.M: the subject string
and the literals are lowercased before matching.  `\s+` / `\s*` are always
followed in these patterns by an element starting with a non-whitespace
character, so greedy whitespace skipping is an equivalent implementation.
`\b` only occurs adjacent to word characters in these patterns, so a left
boundary holds iff the previous character is absent or not a word character,
and a right boundary iff the next one is. -/

inductive RElem
  | lit (p : List Char)
  | ws1
  | ws0
deriving DecidableEq

inductive RPat
  | pat (lb : Bool) (es : List RElem) (rb : Bool)
  | caretWsSemi
deriving DecidableEq

def matchElems : List RElem → List Char → Option (List Char)
  | [], s => some s
  | .lit p :: es, s =>
    match stripPre p s with
    | some r => matchElems es r
    | none => none
  | .ws1 :: es, s =>
    match s with
    | c :: r => if pySpace c then matchElems es (r.dropWhile pySpace) else none
    | [] => none
  | .ws0 :: es, s => matchElems es (s.dropWhile pySpace)

def boundL (lb : Bool) (prev : Option Char) : Bool :=
  if lb then
    match prev with
    | none => true
    | some c => !isWordChar c
  else true

def boundR (rb : Bool) (rest : List Char) : Bool :=
  if rb then
    match rest with
    | [] => true
    | c :: _ => !isWordChar c
  else true

def searchGo (lb : Bool) (es : List RElem) (rb : Bool) :
    Option Char → List Char → Bool
  | prev, s =>
    (boundL lb prev &&
      (match matchElems es s with
       | some rest => boundR rb rest
       | none => false)) ||
    (match s with
     | [] => false
     | c :: rest => searchGo lb es rb (some c) rest)

/-- `^\s*;` with re.M: a line start (string start or just after a newline)
followed by whitespace then a semicolon. -/
def wsSemiAt (s : List Char) : Bool :=
  match s.dropWhile pySpace with
  | ';' :: _ => true
  | _ => false

def caretGo : List Char → Bool
  | [] => false
  | c :: rest => (c = '\n' && wsSemiAt rest) || caretGo rest

def rmatch (p : RPat) (s : List Char) : Bool :=
  match p with
  | .pat lb es rb => searchGo lb es rb none s
  | .caretWsSemi => wsSemiAt s || caretGo s

/-- Word-bounded literal such as \bSLEEP\b (lowercased literal). -/
def wbLit (s : String) : RPat := .pat true [.lit s.toList] true

/-- Plain literal search such as ERROR or \[SLEEPTIME\] (lowercased). -/
def plainLit (s : String) : RPat := .pat false [.lit s.toList] false

/-- Literal with only a leading \b, such as \bIF\( (lowercased). -/
def lbLit (s : String) : RPat := .pat true [.lit s.toList] false

/-- Literal with only a trailing \b, such as ;SELECT\b (lowercased). -/
def rbLit (s : String) : RPat := .pat false [.lit s.toList] true

/-- TECH_KEYWORDS of core_sql/payloads.py (lines 36-43), with each regex
signature compiled (lowercased for re.I). -/
def payloadsTech : List (String × List RPat) :=
  [("time_blind",
     [wbLit "sleep", wbLit "pg_sleep",
      .pat true [.lit "waitfor".toList, .ws1, .lit "delay".toList] true,
      wbLit "benchmark", plainLit "[sleeptime]"]),
   ("union_query",
     [wbLit "union", wbLit "concat", wbLit "group_concat",
      plainLit "delimiter_start"]),
   ("boolean_blind",
     [plainLit "[inference]", lbLit "if(", lbLit "elt(",
      .pat true [.lit "case".toList, .ws1, .lit "when".toList] true]),
   ("error_based",
     [plainLit "error", plainLit "cast(", plainLit "convert(",
      plainLit "json_keys", plainLit "ora-", plainLit "sqlstate"]),
   ("stacked_queries",
     [.caretWsSemi, rbLit ";select",
      .pat false [.lit ";".toList, .ws0, .lit "select".toList] false]),
   ("inline_query",
     [.pat false [.lit "select".toList, .ws1, .lit "(".toList] false,
      wbLit "inline"])]

/-- TECH_KEYWORDS of core_sql/build_payload_catalog.py (lines 32-39).  It
differs from the payloads.py table in the fourth union_query signature
(bracket-escaped there) and writes the six error_based literals as one
alternation, which searches equivalently to trying each alternative. -/
def buildTech : List (String × List RPat) :=
  [("time_blind",
     [wbLit "sleep", wbLit "pg_sleep",
      .pat true [.lit "waitfor".toList, .ws1, .lit "delay".toList] true,
      wbLit "benchmark", plainLit "[sleeptime]"]),
   ("union_query",
     [wbLit "union", wbLit "concat", wbLit "group_concat",
      plainLit "[delimiter_start]"]),
   ("boolean_blind",
     [plainLit "[inference]", lbLit "if(", lbLit "elt(",
      .pat true [.lit "case".toList, .ws1, .lit "when".toList] true]),
   ("error_based",
     [plainLit "cast(", plainLit "convert(", plainLit "json_keys",
      plainLit "ora-", plainLit "sqlstate", plainLit "error"]),
   ("stacked_queries",
     [.caretWsSemi, rbLit ";select",
      .pat false [.lit ";".toList, .ws0, .lit "select".toList] false]),
   ("inline_query",
     [.pat false [.lit "select".toList, .ws1, .lit "(".toList] false,
      wbLit "inline"])]

def payloadsTechNames : List String := payloadsTech.map (fun p => p.1)

/-- content = " ".join(filter(None, [vector or "", example or ""])). -/
def joinContent (v e : Option String) : String :=
  let vs := v.getD ""
  let es := e.getD ""
  if vs ≠ "" && es ≠ "" then vs ++ " " ++ es
  else if vs ≠ "" then vs else es

def lowerList (l : List Char) : List Char := l.map Char.toLower

/-- Techniques whose signature list has a matching signature, in table order
(the order is irrelevant after sorting). -/
def matchedTechs (table : List (String × List RPat)) (content : List Char) :
    List String :=
  (table.filter (fun p => p.2.any (fun r => rmatch r content))).map (fun p => p.1)

/-- Lexicographic comparison on code points (Python string <). -/
def charListLt : List Char → List Char → Bool
  | [], [] => false
  | [], _ :: _ => true
  | _ :: _, [] => false
  | a :: as_, b :: bs => if a < b then true else if b < a then false else charListLt as_ bs

def strLt (a b : String) : Bool := charListLt a.toList b.toList

/-- Insert into a sorted duplicate-free list (used to model
sorted(list(set))). -/
def insertStr (s : String) : List String → List String
  | [] => [s]
  | x :: rest =>
    if s = x then x :: rest
    else if strLt s x then s :: x :: rest
    else x :: insertStr s rest

def sortDedup (l : List String) : List String := l.foldr insertStr []

/-- Technique inference of PayloadDB._parse_xml (payloads.py lines 146-161):
regex matches over the joined content, plus the file type when it is one of
the six technique keys, plus stacked_queries when the file type contains
"stacked"; returned as sorted(list(set)). -/
def inferredPayloads (v e : Option String) (ptype : String) : List String :=
  let content := lowerList (joinContent v e).toList
  let base := matchedTechs payloadsTech content
  let base := if payloadsTechNames.contains ptype then base ++ [ptype] else base
  let base := if ptype ≠ "" && listContains ptype.toList "stacked".toList then
                base ++ ["stacked_queries"] else base
  sortDedup base

/-- Technique inference of parse_xml_file (build_payload_catalog.py lines
104-118): same shape, but every truthy ptype_hint is added (not only the six
known keys) and the build TECH_KEYWORDS table is used. -/
def inferredBuild (v e : Option String) (ptype : String) : List String :=
  let content := lowerList (joinContent v e).toList
  let base := matchedTechs buildTech content
  let base := if ptype ≠ "" then base ++ [ptype] else base
  let base := if listContains ptype.toList "stacked".toList then
                base ++ ["stacked_queries"] else base
  sortDedup base

/-! ### Parsed records and the two parsers

`RawTest` models the fields an XML `<test>` element exposes to the parsers:
each field is `some t` when the corresponding element is present with truthy
(non-empty) text `t`, and `none` otherwise. -/

structure RawTest where
  title : Option String := none
  vector : Option String := none
  payload : Option String := none
  comment : Option String := none
  grep : Option String := none
  time : Option String := none
  dbms : Option String := none
  dbms_version : Option String := none
  level : Option String := none
  risk : Option String := none
deriving DecidableEq

/-- Python truthiness of an optional string field. -/
def truthyOpt : Option String → Bool
  | none => false
  | some s => s ≠ ""

/-- A field assigned only when the element text is truthy, then stripped
(`if el is not None and el.text: field = el.text.strip()`). -/
def extractField (o : Option String) : Option String :=
  match o with
  | some t => if t = "" then none else some (pyStrip t)
  | none => none

/-- int(s) if s and s.isdigit() else None (ASCII digits). -/
def parseNum (o : Option String) : Option Nat :=
  match o with
  | some s => if s ≠ "" && s.toList.all isDigitChar then some (decValue s.toList)
              else none
  | none => none

/-- Tags synthesized by both parsers, in code order: comment_token, then
response_time_marker, then dbms. -/
def mkTags (raw : RawTest) : List String :=
  (match extractField raw.comment with
   | some c => ["comment_token:" ++ c]
   | none => []) ++
  (if truthyOpt raw.time then ["response_time_marker"] else []) ++
  (match extractField raw.dbms with
   | some d => ["dbms:" ++ d]
   | none => [])

/-- Entry produced by PayloadDB._parse_xml (payloads.py). -/
structure PEntry where
  id : String
  title : String
  type : String
  dbms : Option String
  dbms_version : Option String
  vector : Option String
  /-- The `example` field of the record (`example` is a Lean keyword). -/
  examp : Option String
  grep : Option String
  level : Option Nat
  risk : Option Nat
  source : String
  tags : List String
  inferred : List String
deriving DecidableEq

/-- Entry produced by parse_xml_file (build_payload_catalog.py); it carries
the extra safety classification. -/
structure CEntry where
  id : String
  title : String
  type : String
  dbms : Option String
  dbms_version : Option String
  vector : Option String
  /-- The `example` field of the record (`example` is a Lean keyword). -/
  examp : Option String
  grep : Option String
  level : Option Nat
  risk : Option Nat
  source : String
  tags : List String
  inferred : List String
  safety : String
deriving DecidableEq

/-- The safety heuristic of parse_xml_file (build_payload_catalog.py lines
120-129).  The code's literal class strings are "non-destructive",
"may-alter-db" and "destructive"; the spec calls the middle one
"may-alter-data". -/
def safetyOfRisk : Option Nat → String
  | some r => if r ≤ 2 then "non-destructive"
              else if r ≤ 4 then "may-alter-db"
              else "destructive"
  | none => "non-destructive"

/-- One `<test>` record through PayloadDB._parse_xml (payloads.py lines
103-168).  `uid` models the fresh str(uuid.uuid4()); `src` the file basename.
Returns none exactly when the record is dropped for lacking both vector and
example. -/
def parseTestPayloads (raw : RawTest) (ptype : String) (uid src : String) :
    Option PEntry :=
  let vec := extractField raw.vector
  let ex := extractField raw.payload
  if !truthyOpt vec && !truthyOpt ex then none
  else some
    { id := uid
      title := pyStrip (raw.title.getD "")
      type := ptype
      dbms := extractField raw.dbms
      dbms_version := extractField raw.dbms_version
      vector := vec
      examp := ex
      grep := extractField raw.grep
      level := parseNum raw.level
      risk := parseNum raw.risk
      source := src
      tags := mkTags raw
      inferred := inferredPayloads vec ex ptype }

/-- One `<test>` record through parse_xml_file (build_payload_catalog.py
lines 50-133). -/
def parseTestBuild (raw : RawTest) (ptype : String) (uid src : String) :
    Option CEntry :=
  let vec := extractField raw.vector
  let ex := extractField raw.payload
  if truthyOpt vec || truthyOpt ex then some
    { id := uid
      title := pyStrip (raw.title.getD "")
      type := ptype
      dbms := extractField raw.dbms
      dbms_version := extractField raw.dbms_version
      vector := vec
      examp := ex
      grep := extractField raw.grep
      level := parseNum raw.level
      risk := parseNum raw.risk
      source := src
      tags := mkTags raw
      inferred := inferredBuild vec ex ptype
      safety := safetyOfRisk (parseNum raw.risk) }
  else none

/-- All records of one file through PayloadDB._parse_xml; each record is
paired with its fresh uuid. -/
def parseFilePayloads (raws : List (String × RawTest)) (ptype src : String) :
    List PEntry :=
  raws.filterMap (fun p => parseTestPayloads p.2 ptype p.1 src)

/-- All records of one file through parse_xml_file. -/
def parseFileBuild (raws : List (String × RawTest)) (ptype src : String) :
    List CEntry :=
  raws.filterMap (fun p => parseTestBuild p.2 ptype p.1 src)

/-! ### PayloadDB retrieval APIs and the dry-run candidate selector -/

structure PayloadDB where
  entries : List PEntry
deriving DecidableEq

/-- `res[:limit] if limit else res`: truncation happens only when `limit` is
truthy (an int other than 0 and not None). -/
def applyLimit {α : Type} (limit : Option Nat) (res : List α) : List α :=
  match limit with
  | some l => if l = 0 then res else res.take l
  | none => res

def strContains (s pat : String) : Bool := listContains s.toList pat.toList

/-- `e.get("dbms") and dbms.lower() in e.get("dbms").lower()`. -/
def entryDbmsMatches (hint : String) (e : PEntry) : Bool :=
  match e.dbms with
  | some d => d ≠ "" && listContains (lowerList d.toList) (lowerList hint.toList)
  | none => false

/-- The naive safety filter of by_dbms (payloads.py lines 182-187). -/
def applySafety (safety : Option String) (res : List PEntry) : List PEntry :=
  match safety with
  | some s =>
    if s = "" then res
    else if s = "non-destructive" then res.filter (fun r => r.risk.getD 0 ≤ 2)
    else if s = "may-alter-db" then res.filter (fun r => r.risk.getD 0 ≤ 4)
    else res
  | none => res

/-- PayloadDB.by_dbms (payloads.py lines 180-188). -/
def by_dbms (db : PayloadDB) (dbms : String) (limit : Option Nat)
    (safety : Option String) : List PEntry :=
  applyLimit limit (applySafety safety (db.entries.filter (entryDbmsMatches dbms)))

def entryTechMatches (technique : String) (e : PEntry) : Bool :=
  technique == e.type || e.inferred.contains technique

/-- PayloadDB.by_technique (payloads.py lines 190-193). -/
def by_technique (db : PayloadDB) (technique : String) (limit : Option Nat) :
    List PEntry :=
  applyLimit limit (db.entries.filter (entryTechMatches technique))

def tagMatches (tag : String) (t : String) : Bool :=
  (stripPre tag.toList t.toList).isSome || t == tag

/-- PayloadDB.by_tag (payloads.py lines 195-197). -/
def by_tag (db : PayloadDB) (tag : String) (limit : Option Nat) : List PEntry :=
  applyLimit limit (db.entries.filter (fun e => e.tags.any (tagMatches tag)))

/-- The scanner vulnerability descriptor as read by choose_candidates;
vtype models the record's "type" key. -/
structure Vuln where
  technique : Option String
  vtype : Option String
  dbms : Option String
deriving DecidableEq

/-- `vuln.get("technique") or vuln.get("type") or "boolean"`. -/
def firstTruthy (l : List (Option String)) (d : String) : String :=
  match l with
  | [] => d
  | some s :: rest => if s ≠ "" then s else firstTruthy rest d
  | none :: rest => firstTruthy rest d

def vulnTechLabel (v : Vuln) : String := firstTruthy [v.technique, v.vtype] "boolean"

/-- TECH_TO_PTYPE (injector.py lines 18-25). -/
def TECH_TO_PTYPE : List (String × String) :=
  [("boolean", "boolean_blind"), ("error", "error_based"), ("time", "time_blind"),
   ("union", "union_query"), ("stacked", "stacked_queries"), ("inline", "inline_query")]

def lookupStr (l : List (String × String)) (k : String) : Option String :=
  match l with
  | [] => none
  | p :: rest => if p.1 = k then some p.2 else lookupStr rest k

/-- choose_candidates (injector.py lines 27-42). -/
def choose_candidates (db : PayloadDB) (v : Vuln) (limit : Nat) : List PEntry :=
  let technique := vulnTechLabel v
  let pt := (lookupStr TECH_TO_PTYPE technique).getD "boolean_blind"
  let c0 : List PEntry :=
    match v.dbms with
    | some d =>
      if d ≠ "" then
        (by_dbms db d (some limit) none).filter
          (fun c => c.type == pt || c.inferred.contains pt)
      else []
    | none => []
  let c1 := if c0.isEmpty then by_technique db pt (some limit) else c0
  let c2 := if c1.isEmpty then db.entries.take limit else c1
  c2.take limit

/-- Modelled from the spec wording of the Candidate Selector fallback chain
(spec section 4.7 and claim C1): canonical technique via the alias table with
default boolean_blind; with a (non-empty) engine hint, up to limit
case-insensitive engine-substring matches filtered by technique; otherwise up
to limit technique matches over all engines; otherwise the first limit
definitions; capped at limit. -/
def selectSpec (db : PayloadDB) (tech engine : Option String) (limit : Nat) :
    List PEntry :=
  let label := match tech with
               | some t => if t = "" then "boolean" else t
               | none => "boolean"
  let pt := (lookupStr TECH_TO_PTYPE label).getD "boolean_blind"
  let stage1 := match engine with
                | some eng =>
                  if eng = "" then []
                  else ((db.entries.filter (entryDbmsMatches eng)).take limit).filter
                         (fun c => c.type == pt || c.inferred.contains pt)
                | none => []
  let stage2 := if stage1.isEmpty then (db.entries.filter (entryTechMatches pt)).take limit
                else stage1
  let stage3 := if stage2.isEmpty then db.entries.take limit else stage2
  stage3.take limit

/-! ### Catalog index builder (build_payload_catalog.py build_catalog) -/

/-- Insertion-ordered dict of string keys to id lists;
`dictAppend d k v` models `d.setdefault(k, []).append(v)`. -/
def dictAppend (d : List (String × List String)) (k : String) (v : String) :
    List (String × List String) :=
  match d with
  | [] => [(k, [v])]
  | (k', vs) :: rest =>
    if k' = k then (k', vs ++ [v]) :: rest else (k', vs) :: dictAppend rest k v

/-- `d.get(k, [])`. -/
def dget (d : List (String × List String)) (k : String) : List String :=
  match d with
  | [] => []
  | (k', vs) :: rest => if k' = k then vs else dget rest k

structure Indexes where
  by_type : List (String × List String)
  by_dbms : List (String × List String)
  by_tag : List (String × List String)
deriving DecidableEq

/-- `e.get("type") or "unknown"`. -/
def typeKeyOf (e : CEntry) : String := if e.type = "" then "unknown" else e.type

/-- `db = e.get("dbms"); if db: ...`. -/
def dbmsKeyOf (e : CEntry) : Option String :=
  match e.dbms with
  | some d => if d = "" then none else some d
  | none => none

/-- One iteration of the index-building loop (build_payload_catalog.py lines
152-162): type key, dbms key, each tag, then each inferred technique again
into by_type. -/
def indexStep (acc : Indexes) (e : CEntry) : Indexes :=
  let bt := dictAppend acc.by_type (typeKeyOf e) e.id
  let bd := match dbmsKeyOf e with
            | some d => dictAppend acc.by_dbms d e.id
            | none => acc.by_dbms
  let btag := e.tags.foldl (fun d tg => dictAppend d tg e.id) acc.by_tag
  let bt2 := e.inferred.foldl (fun d it => dictAppend d it e.id) bt
  ⟨bt2, bd, btag⟩

/-- The three indexes built by build_catalog (lines 148-162) over the final
entries list. -/
def buildIndexes (entries : List CEntry) : Indexes :=
  entries.foldl indexStep ⟨[], [], []⟩

/-! ### Catalog store loader (payload_catalog.py) -/

/-- The persisted catalog document (entries plus the three indexes). -/
structure CatalogDoc where
  generated_at : String
  count : Nat
  entries : List CEntry
  by_type : List (String × List String)
  by_dbms : List (String × List String)
  by_tag : List (String × List String)
deriving DecidableEq

structure LoaderState where
  path : String
  catalog : CatalogDoc
deriving DecidableEq

inductive LoadErr
  | catalogNotFound (path : String)
deriving DecidableEq

/-- CatalogLoader.__init__ (payload_catalog.py lines 22-26): the filesystem is
modelled as a read-only map from paths to parsed documents; a missing file
raises (FileNotFoundError), and no fallback catalog is built. -/
def catalogLoaderInit (fs : String → Option CatalogDoc) (path : String) :
    Except LoadErr LoaderState :=
  match fs path with
  | none => .error (.catalogNotFound path)
  | some doc => .ok ⟨path, doc⟩

/-- Python dict comprehension over entries keyed by id (later entries win). -/
def lookupEntry (es : List CEntry) (i : String) : Option CEntry :=
  es.foldl (fun acc e => if e.id = i then some e else acc) none

/-- CatalogLoader.get_by_dbms (payload_catalog.py lines 40-43). -/
def get_by_dbms (st : LoaderState) (dbms : String) (limit : Option Nat) :
    List CEntry :=
  applyLimit limit
    ((dget st.catalog.by_dbms dbms).filterMap (lookupEntry st.catalog.entries))

/-- CatalogLoader.get_by_type (payload_catalog.py lines 45-48). -/
def get_by_type (st : LoaderState) (ptype : String) (limit : Option Nat) :
    List CEntry :=
  applyLimit limit
    ((dget st.catalog.by_type ptype).filterMap (lookupEntry st.catalog.entries))

/-- CatalogLoader.get_by_tag (payload_catalog.py lines 50-53). -/
def get_by_tag (st : LoaderState) (tag : String) (limit : Option Nat) :
    List CEntry :=
  applyLimit limit
    ((dget st.catalog.by_tag tag).filterMap (lookupEntry st.catalog.entries))

/-! ### Claim C2: the safety classifier -/

/-- C2: the safety classifier is a pure function of the numeric risk field:
risk ≤ 2 (or absent) yields the non-destructive class, 2 < risk ≤ 4 the
may-alter class (code literal "may-alter-db", called may-alter-data in the
spec), and risk > 4 the destructive class; in particular 2, 3 and 5 map to
those three classes, and every entry built by parse_xml_file carries exactly
the class computed from its own risk. -/
theorem safety_classifier_boundaries :
    (∀ n : Nat, n ≤ 2 → safetyOfRisk (some n) = "non-destructive") ∧
    (∀ n : Nat, 2 < n → n ≤ 4 → safetyOfRisk (some n) = "may-alter-db") ∧
    (∀ n : Nat, 4 < n → safetyOfRisk (some n) = "destructive") ∧
    safetyOfRisk none = "non-destructive" ∧
    safetyOfRisk (some 2) = "non-destructive" ∧
    safetyOfRisk (some 3) = "may-alter-db" ∧
    safetyOfRisk (some 5) = "destructive" ∧
    (∀ raw ptype uid src e, parseTestBuild raw ptype uid src = some e →
      e.safety = safetyOfRisk e.risk) := by
  refine ⟨?_, ?_, ?_, rfl, rfl, rfl, rfl, ?_⟩
  · intro n h
    simp [safetyOfRisk, h]
  · intro n h1 h2
    show (if n ≤ 2 then "non-destructive"
          else if n ≤ 4 then "may-alter-db" else "destructive") = _
    rw [if_neg (by omega), if_pos h2]
  · intro n h
    show (if n ≤ 2 then "non-destructive"
          else if n ≤ 4 then "may-alter-db" else "destructive") = _
    rw [if_neg (by omega), if_neg (by omega)]
  · intro raw ptype uid src e h
    unfold parseTestBuild at h
    by_cases hc : (truthyOpt (extractField raw.vector) ||
        truthyOpt (extractField raw.payload)) = true
    · rw [if_pos hc] at h
      cases h
      rfl
    · rw [if_neg hc] at h
      cases h

/-- Witness for C2 at concrete inputs. -/
theorem safety_classifier_boundaries_witness :
    safetyOfRisk (some 1) = "non-destructive" ∧
    safetyOfRisk (some 4) = "may-alter-db" ∧
    safetyOfRisk (some 7) = "destructive" ∧
    (parseTestBuild { vector := some "SELECT 1" } "boolean_blind" "u" "f").map
      (fun e => e.safety) = some "non-destructive" := by
  refine ⟨safety_classifier_boundaries.1 1 (by decide),
          safety_classifier_boundaries.2.1 4 (by decide) (by decide),
          safety_classifier_boundaries.2.2.1 7 (by decide), ?_⟩
  have h := safety_classifier_boundaries.2.2.2.2.2.2.2
    { vector := some "SELECT 1" } "boolean_blind" "u" "f"
  have heval : parseTestBuild { vector := some "SELECT 1" : RawTest }
      "boolean_blind" "u" "f" =
      some { id := "u", title := "", type := "boolean_blind", dbms := none,
             dbms_version := none, vector := some "SELECT 1", examp := none,
             grep := none, level := none, risk := none, source := "f",
             tags := [], inferred := ["boolean_blind"],
             safety := "non-destructive" } := by decide
  rw [heval]
  exact congrArg some ((h _ heval).trans rfl)

/-! ### Claim C3: the concrete whitespace-normalisation example -/

/-- C3: evaluating PayloadDB.render on the two-line template of the claim with
an empty context.  The code keeps the single newline produced by the line
join (the collapse regex only touches runs of two or more whitespace
characters), so the result is "a\nb", not the "a b" stated by the spec and by
the code's own inline comment ("remove newlines"). -/
theorem render_whitespace_example_eval :
    render "  a   \n  b  ".toList [] 1234 [] = "a\nb".toList ∧
    "a\nb".toList ≠ "a b".toList :=
  ⟨by decide, by decide⟩

/-! ### Claim C8: inference equivalence across the two modules -/

/-- C8: the technique inference of PayloadDB._parse_xml and the one of
parse_xml_file disagree: on a record with vector "x", no example and
declared-type hint "custom" (a file custom.xml), payloads.py infers the empty
set while build_payload_catalog.py infers the singleton with the hint
(build adds every truthy hint, payloads.py only the six known keys; the two
TECH_KEYWORDS tables also drifted on the fourth union_query signature). -/
theorem inference_divergence_eval :
    inferredPayloads (some "x") none "custom" = [] ∧
    inferredBuild (some "x") none "custom" = ["custom"] ∧
    inferredPayloads (some "x") none "custom" ≠
      inferredBuild (some "x") none "custom" :=
  ⟨by decide, by decide, by decide⟩

/-! ### Claim C9: missing catalog store is fatal -/

/-- C9: constructing a CatalogLoader over a filesystem with no document at
the requested path yields the CatalogNotFound error (FileNotFoundError in the
code) and never a fallback catalog; when a document is present, construction
succeeds and holds exactly the stored document, unmutated. -/
theorem catalog_loader_missing_fatal (fs : String → Option CatalogDoc)
    (path : String) :
    (fs path = none →
      catalogLoaderInit fs path = .error (.catalogNotFound path)) ∧
    (∀ doc, fs path = some doc → catalogLoaderInit fs path = .ok ⟨path, doc⟩) := by
  constructor
  · intro h
    simp [catalogLoaderInit, h]
  · intro doc h
    simp [catalogLoaderInit, h]

def wDoc : CatalogDoc :=
  { generated_at := "2024-01-01T00:00:00Z", count := 0, entries := [],
    by_type := [], by_dbms := [], by_tag := [] }

/-- Witness for C9 on a concrete missing and a concrete present store. -/
theorem catalog_loader_missing_fatal_witness :
    catalogLoaderInit (fun _ => none) "core_sql/payloads_catalog.json" =
      .error (.catalogNotFound "core_sql/payloads_catalog.json") ∧
    catalogLoaderInit (fun _ => some wDoc) "core_sql/payloads_catalog.json" =
      .ok ⟨"core_sql/payloads_catalog.json", wDoc⟩ :=
  ⟨(catalog_loader_missing_fatal (fun _ => none)
      "core_sql/payloads_catalog.json").1 rfl,
   (catalog_loader_missing_fatal (fun _ => some wDoc)
      "core_sql/payloads_catalog.json").2 wDoc rfl⟩

/-! ### Claim C10: limit = 0 returns the unbounded list -/

theorem applyLimit_zero {α : Type} (res : List α) :
    applyLimit (some 0) res = applyLimit none res := rfl

theorem applyLimit_length {α : Type} (l : Nat) (h : 1 ≤ l) (res : List α) :
    (applyLimit (some l) res).length ≤ l := by
  show (if l = 0 then res else res.take l).length ≤ l
  rw [if_neg (by omega)]
  simp [List.length_take]

/-- C10: in all six limited retrieval operations, limit = 0 is falsy, so the
truncation is skipped and the full result list is returned; the bound
len(result) ≤ limit holds for every limit ≥ 1. -/
theorem limit_zero_unbounded :
    (∀ db d s, by_dbms db d (some 0) s = by_dbms db d none s) ∧
    (∀ db t, by_technique db t (some 0) = by_technique db t none) ∧
    (∀ db g, by_tag db g (some 0) = by_tag db g none) ∧
    (∀ st d, get_by_dbms st d (some 0) = get_by_dbms st d none) ∧
    (∀ st t, get_by_type st t (some 0) = get_by_type st t none) ∧
    (∀ st g, get_by_tag st g (some 0) = get_by_tag st g none) ∧
    (∀ db d s l, 1 ≤ l → (by_dbms db d (some l) s).length ≤ l) ∧
    (∀ db t l, 1 ≤ l → (by_technique db t (some l)).length ≤ l) ∧
    (∀ db g l, 1 ≤ l → (by_tag db g (some l)).length ≤ l) ∧
    (∀ st d l, 1 ≤ l → (get_by_dbms st d (some l)).length ≤ l) ∧
    (∀ st t l, 1 ≤ l → (get_by_type st t (some l)).length ≤ l) ∧
    (∀ st g l, 1 ≤ l → (get_by_tag st g (some l)).length ≤ l) := by
  refine ⟨fun db d s => rfl, fun db t => rfl, fun db g => rfl,
          fun st d => rfl, fun st t => rfl, fun st g => rfl,
          fun db d s l h => applyLimit_length l h _,
          fun db t l h => applyLimit_length l h _,
          fun db g l h => applyLimit_length l h _,
          fun st d l h => applyLimit_length l h _,
          fun st t l h => applyLimit_length l h _,
          fun st g l h => applyLimit_length l h _⟩

def wEntryA : PEntry :=
  { id := "A", title := "a", type := "union_query", dbms := some "MySQL",
    dbms_version := none, vector := some "UNION SELECT [QUERY]", examp := none,
    grep := none, level := some 1, risk := some 1, source := "union_query.xml",
    tags := ["dbms:MySQL"], inferred := ["union_query"] }

def wEntryB : PEntry :=
  { id := "B", title := "b", type := "time_blind", dbms := some "PostgreSQL",
    dbms_version := none, vector := some "PG_SLEEP([SLEEPTIME])", examp := none,
    grep := none, level := some 1, risk := some 1, source := "time_blind.xml",
    tags := ["dbms:PostgreSQL"], inferred := ["time_blind"] }

def wDB : PayloadDB := ⟨[wEntryA, wEntryB]⟩

/-- Witness for C10: limit 0 versus none and the bound at limit 1 on a
concrete two-entry database. -/
theorem limit_zero_unbounded_witness :
    by_dbms wDB "MySQL" (some 0) none = by_dbms wDB "MySQL" none none ∧
    (by_dbms wDB "MySQL" (some 1) none).length ≤ 1 ∧
    by_technique wDB "time_blind" (some 0) = by_technique wDB "time_blind" none ∧
    (by_technique wDB "time_blind" (some 1)).length ≤ 1 :=
  ⟨limit_zero_unbounded.1 wDB "MySQL" none,
   limit_zero_unbounded.2.2.2.2.2.2.1 wDB "MySQL" none 1 (by decide),
   limit_zero_unbounded.2.1 wDB "time_blind",
   limit_zero_unbounded.2.2.2.2.2.2.2.1 wDB "time_blind" 1 (by decide)⟩

/-! ### Claim C6: persisted definitions have a vector or an example -/

/-- C6: every definition produced by either parser has a truthy vector or a
truthy example; a record whose extracted vector and example are both falsy is
dropped (the parser returns none), silently and without error. -/
theorem parsed_definitions_have_content :
    (∀ raws ptype src, ∀ e ∈ parseFilePayloads raws ptype src,
      truthyOpt e.vector = true ∨ truthyOpt e.examp = true) ∧
    (∀ raws ptype src, ∀ e ∈ parseFileBuild raws ptype src,
      truthyOpt e.vector = true ∨ truthyOpt e.examp = true) ∧
    (∀ raw ptype uid src, truthyOpt (extractField raw.vector) = false →
      truthyOpt (extractField raw.payload) = false →
      parseTestPayloads raw ptype uid src = none ∧
      parseTestBuild raw ptype uid src = none) := by
  refine ⟨?_, ?_, ?_⟩
  · intro raws ptype src e he
    unfold parseFilePayloads at he
    obtain ⟨p, _, hp⟩ := List.mem_filterMap.mp he
    unfold parseTestPayloads at hp
    by_cases hv : truthyOpt (extractField p.2.vector) = true
    · rw [if_neg (by simp [hv])] at hp
      cases hp
      exact Or.inl hv
    · by_cases hx : truthyOpt (extractField p.2.payload) = true
      · rw [if_neg (by simp [hx])] at hp
        cases hp
        exact Or.inr hx
      · rw [if_pos (by simp [Bool.not_eq_true] at hv hx; simp [hv, hx])] at hp
        cases hp
  · intro raws ptype src e he
    unfold parseFileBuild at he
    obtain ⟨p, _, hp⟩ := List.mem_filterMap.mp he
    unfold parseTestBuild at hp
    by_cases hv : truthyOpt (extractField p.2.vector) = true
    · rw [if_pos (by simp [hv])] at hp
      cases hp
      exact Or.inl hv
    · by_cases hx : truthyOpt (extractField p.2.payload) = true
      · rw [if_pos (by simp [hx])] at hp
        cases hp
        exact Or.inr hx
      · rw [if_neg (by simp [Bool.not_eq_true] at hv hx; simp [hv, hx])] at hp
        cases hp
  · intro raw ptype uid src hv hx
    constructor
    · unfold parseTestPayloads
      rw [if_pos (by simp [hv, hx])]
    · unfold parseTestBuild
      rw [if_neg (by simp [hv, hx])]

def wPE : PEntry :=
  { id := "u", title := "", type := "boolean_blind", dbms := none,
    dbms_version := none, vector := some "SELECT 1", examp := none,
    grep := none, level := none, risk := none, source := "f",
    tags := [], inferred := ["boolean_blind"] }

/-- Witness for C6: a concrete parsed file keeps the record with a vector and
drops the record with neither vector nor example. -/
theorem parsed_definitions_have_content_witness :
    (truthyOpt wPE.vector = true ∨ truthyOpt wPE.examp = true) ∧
    parseTestPayloads { title := some "empty" } "boolean_blind" "u2" "f" = none ∧
    parseTestBuild { title := some "empty" } "boolean_blind" "u2" "f" = none := by
  refine ⟨?_, ?_, ?_⟩
  · exact parsed_definitions_have_content.1 [("u", { vector := some "SELECT 1" })]
      "boolean_blind" "f" wPE (by decide)
  · exact (parsed_definitions_have_content.2.2 { title := some "empty" }
      "boolean_blind" "u2" "f" (by decide) (by decide)).1
  · exact (parsed_definitions_have_content.2.2 { title := some "empty" }
      "boolean_blind" "u2" "f" (by decide) (by decide)).2

/-! ### Claim C1: the candidate selector fallback chain -/

theorem vulnTechLabel_of_no_vtype (v : Vuln) (hv : v.vtype = none) :
    vulnTechLabel v =
      (match v.technique with
       | some t => if t = "" then "boolean" else t
       | none => "boolean") := by
  unfold vulnTechLabel
  rw [hv]
  cases v.technique with
  | none => rfl
  | some t =>
    by_cases ht : t = "" <;> simp [firstTruthy, ht]

theorem by_dbms_take (db : PayloadDB) (d : String) (limit : Nat)
    (h0 : limit ≠ 0) :
    by_dbms db d (some limit) none =
      (db.entries.filter (entryDbmsMatches d)).take limit := by
  show (if limit = 0 then db.entries.filter (entryDbmsMatches d)
        else (db.entries.filter (entryDbmsMatches d)).take limit) = _
  rw [if_neg h0]

theorem by_technique_take (db : PayloadDB) (t : String) (limit : Nat)
    (h0 : limit ≠ 0) :
    by_technique db t (some limit) =
      (db.entries.filter (entryTechMatches t)).take limit := by
  show (if limit = 0 then db.entries.filter (entryTechMatches t)
        else (db.entries.filter (entryTechMatches t)).take limit) = _
  rw [if_neg h0]

/-- C1: for every database, descriptor (of the spec's shape, i.e. carrying no
"type" key) and limit ≥ 1, choose_candidates returns exactly the list of the
spec's fallback chain (selectSpec); it is total by construction, its result
never exceeds limit, each fetching stage is capped at limit, and an empty
catalog yields the empty list. -/
theorem candidate_selector_chain (db : PayloadDB) (v : Vuln) (limit : Nat)
    (hl : 1 ≤ limit) (hv : v.vtype = none) :
    choose_candidates db v limit = selectSpec db v.technique v.dbms limit ∧
    (choose_candidates db v limit).length ≤ limit ∧
    (db.entries = [] → choose_candidates db v limit = []) ∧
    (∀ d, (by_dbms db d (some limit) none).length ≤ limit) ∧
    (∀ t, (by_technique db t (some limit)).length ≤ limit) := by
  have h0 : limit ≠ 0 := by omega
  refine ⟨?_, ?_, ?_, ?_, ?_⟩
  · simp only [choose_candidates, selectSpec]
    rw [vulnTechLabel_of_no_vtype v hv]
    cases hvd : v.dbms with
    | none =>
      simp [by_technique_take, h0]
    | some d =>
      by_cases hd : d = "" <;>
        simp [by_dbms_take, by_technique_take, h0, hd]
  · simp only [choose_candidates]
    rw [List.length_take]
    exact Nat.min_le_left _ _
  · intro he
    cases hvd : v.dbms with
    | none =>
      simp [choose_candidates, hvd, by_technique, applyLimit, applySafety, he, h0]
    | some d =>
      by_cases hd : d = "" <;>
        simp [choose_candidates, hvd, hd, by_dbms, by_technique, applyLimit,
              applySafety, he, h0]
  · intro d
    rw [by_dbms_take db d limit h0, List.length_take]
    exact Nat.min_le_left _ _
  · intro t
    rw [by_technique_take db t limit h0, List.length_take]
    exact Nat.min_le_left _ _

/-- Witness for C1: the spec's selector scenario on a concrete two-entry
catalog (engine match, engine miss falling back to technique, and the final
unfiltered fallback for an unknown technique). -/
theorem candidate_selector_chain_witness :
    choose_candidates wDB ⟨some "union", none, some "MySQL"⟩ 5 =
      selectSpec wDB (some "union") (some "MySQL") 5 ∧
    choose_candidates wDB ⟨some "union", none, some "MySQL"⟩ 5 = [wEntryA] ∧
    choose_candidates wDB ⟨some "union", none, some "Oracle"⟩ 5 = [wEntryA] ∧
    choose_candidates wDB ⟨some "unknown", none, none⟩ 1 = [wEntryA] ∧
    (choose_candidates wDB ⟨some "union", none, some "MySQL"⟩ 5).length ≤ 5 :=
  ⟨(candidate_selector_chain wDB ⟨some "union", none, some "MySQL"⟩ 5
      (by decide) rfl).1,
   by decide, by decide, by decide,
   (candidate_selector_chain wDB ⟨some "union", none, some "MySQL"⟩ 5
      (by decide) rfl).2.1⟩

/-! ### Claim C7: index identifiers exist and buckets are in entry order -/

def catMap {α β : Type} (f : α → List β) : List α → List β
  | [] => []
  | x :: xs => f x ++ catMap f xs

def cntStr (a : String) : List String → Nat
  | [] => 0
  | x :: xs => (if a = x then 1 else 0) + cntStr a xs

/-- Collapse adjacent equal identifiers (used to state bucket order in the
presence of the duplicate self-confirmation ids flagged in spec section 9). -/
def dedupAdj : List String → List String
  | [] => []
  | [a] => [a]
  | a :: b :: r => if a = b then dedupAdj (b :: r) else a :: dedupAdj (b :: r)

/-- Number of times entry `e` contributes its id to the by_type bucket of key
`q`: once for its type key, once per matching inferred technique. -/
def typeCnt (q : String) (e : CEntry) : Nat :=
  (if q = typeKeyOf e then 1 else 0) + cntStr q e.inferred

def typeMatchesB (q : String) (e : CEntry) : Bool :=
  typeKeyOf e == q || e.inferred.contains q

theorem replicate_one_add (n : Nat) (a : String) :
    List.replicate (1 + n) a = a :: List.replicate n a := by
  rw [Nat.add_comm]
  rfl

theorem dget_dictAppend (d : List (String × List String)) (k v q : String) :
    dget (dictAppend d k v) q = dget d q ++ (if q = k then [v] else []) := by
  induction d with
  | nil =>
    by_cases h : q = k
    · subst h
      simp [dictAppend, dget]
    · have h' : ¬k = q := fun hh => h hh.symm
      simp [dictAppend, dget, h, h']
  | cons p rest ih =>
    obtain ⟨k', vs⟩ := p
    by_cases h1 : k' = k
    · subst h1
      by_cases h2 : k' = q
      · subst h2
        simp [dictAppend, dget]
      · have h2' : ¬q = k' := fun hh => h2 hh.symm
        simp [dictAppend, dget, h2, h2']
    · by_cases h2 : k' = q
      · subst h2
        simp [dictAppend, dget, h1]
      · simp [dictAppend, dget, h1, h2, ih]

theorem dget_foldl_dictAppend (L : List String) (v : String)
    (d0 : List (String × List String)) (q : String) :
    dget (L.foldl (fun d x => dictAppend d x v) d0) q =
      dget d0 q ++ List.replicate (cntStr q L) v := by
  induction L generalizing d0 with
  | nil => simp [cntStr]
  | cons x xs ih =>
    show dget (xs.foldl (fun d x => dictAppend d x v) (dictAppend d0 x v)) q = _
    rw [ih, dget_dictAppend, List.append_assoc]
    congr 1
    by_cases h : q = x
    · rw [if_pos h, show cntStr q (x :: xs) = 1 + cntStr q xs by simp [cntStr, h],
          replicate_one_add]
      rfl
    · rw [if_neg h, show cntStr q (x :: xs) = cntStr q xs by simp [cntStr, h],
          List.nil_append]

theorem indexStep_by_type (acc : Indexes) (e : CEntry) (q : String) :
    dget (indexStep acc e).by_type q =
      dget acc.by_type q ++ List.replicate (typeCnt q e) e.id := by
  show dget (e.inferred.foldl (fun d it => dictAppend d it e.id)
        (dictAppend acc.by_type (typeKeyOf e) e.id)) q = _
  rw [dget_foldl_dictAppend, dget_dictAppend, List.append_assoc]
  congr 1
  unfold typeCnt
  by_cases h : q = typeKeyOf e
  · rw [if_pos h, if_pos h, replicate_one_add]
    rfl
  · rw [if_neg h, if_neg h, List.nil_append, Nat.zero_add]

theorem indexStep_by_dbms (acc : Indexes) (e : CEntry) (q : String) :
    dget (indexStep acc e).by_dbms q =
      dget acc.by_dbms q ++ (if dbmsKeyOf e = some q then [e.id] else []) := by
  show dget (match dbmsKeyOf e with
             | some d => dictAppend acc.by_dbms d e.id
             | none => acc.by_dbms) q = _
  cases hdb : dbmsKeyOf e with
  | none => simp
  | some d =>
    rw [dget_dictAppend]
    by_cases h : q = d
    · simp [h]
    · have h' : ¬d = q := fun hh => h hh.symm
      simp [h, h']

theorem indexStep_by_tag (acc : Indexes) (e : CEntry) (q : String) :
    dget (indexStep acc e).by_tag q =
      dget acc.by_tag q ++ List.replicate (cntStr q e.tags) e.id := by
  show dget (e.tags.foldl (fun d tg => dictAppend d tg e.id) acc.by_tag) q = _
  rw [dget_foldl_dictAppend]

theorem foldl_indexStep_by_type (entries : List CEntry) (acc : Indexes)
    (q : String) :
    dget ((entries.foldl indexStep acc).by_type) q =
      dget acc.by_type q ++
        catMap (fun e => List.replicate (typeCnt q e) e.id) entries := by
  induction entries generalizing acc with
  | nil => simp [catMap]
  | cons e rest ih =>
    show dget ((rest.foldl indexStep (indexStep acc e)).by_type) q = _
    rw [ih, indexStep_by_type, List.append_assoc]
    rfl

theorem foldl_indexStep_by_dbms (entries : List CEntry) (acc : Indexes)
    (q : String) :
    dget ((entries.foldl indexStep acc).by_dbms) q =
      dget acc.by_dbms q ++
        catMap (fun e => if dbmsKeyOf e = some q then [e.id] else []) entries := by
  induction entries generalizing acc with
  | nil => simp [catMap]
  | cons e rest ih =>
    show dget ((rest.foldl indexStep (indexStep acc e)).by_dbms) q = _
    rw [ih, indexStep_by_dbms, List.append_assoc]
    rfl

theorem foldl_indexStep_by_tag (entries : List CEntry) (acc : Indexes)
    (q : String) :
    dget ((entries.foldl indexStep acc).by_tag) q =
      dget acc.by_tag q ++
        catMap (fun e => List.replicate (cntStr q e.tags) e.id) entries := by
  induction entries generalizing acc with
  | nil => simp [catMap]
  | cons e rest ih =>
    show dget ((rest.foldl indexStep (indexStep acc e)).by_tag) q = _
    rw [ih, indexStep_by_tag, List.append_assoc]
    rfl

theorem mem_catMap {α β : Type} (f : α → List β) (l : List α) (x : β) :
    x ∈ catMap f l ↔ ∃ e ∈ l, x ∈ f e := by
  induction l with
  | nil => simp [catMap]
  | cons a rest ih => simp [catMap, ih]

theorem dedupAdj_replicate_append (a : String) (m : Nat) (l : List String) :
    dedupAdj (List.replicate (m + 1) a ++ l) = dedupAdj (a :: l) := by
  induction m with
  | zero => rfl
  | succ m ih =>
    show dedupAdj (a :: a :: (List.replicate m a ++ l)) = _
    rw [show dedupAdj (a :: a :: (List.replicate m a ++ l)) =
          dedupAdj (a :: (List.replicate m a ++ l)) by simp [dedupAdj]]
    exact ih

theorem dedupAdj_cons_of_ne (a : String) (l : List String)
    (h : ∀ b ∈ l, a ≠ b) :
    dedupAdj (a :: l) = a :: dedupAdj l := by
  cases l with
  | nil => rfl
  | cons b r =>
    have hb : ¬a = b := h b (List.mem_cons_self b r)
    simp [dedupAdj, hb]

theorem dedupAdj_catMap_replicate (l : List CEntry) (cnt : CEntry → Nat)
    (hids : (l.map (fun e => e.id)).Nodup) :
    dedupAdj (catMap (fun e => List.replicate (cnt e) e.id) l) =
      (l.filter (fun e => decide (0 < cnt e))).map (fun e => e.id) := by
  induction l with
  | nil => rfl
  | cons e rest ih =>
    have hnd : (rest.map (fun e => e.id)).Nodup := (List.nodup_cons.mp hids).2
    have hne : e.id ∉ rest.map (fun e => e.id) := (List.nodup_cons.mp hids).1
    have hall : ∀ b ∈ catMap (fun e => List.replicate (cnt e) e.id) rest,
        e.id ≠ b := by
      intro b hb
      obtain ⟨e', he', hbe⟩ := (mem_catMap _ rest b).mp hb
      have hb' : b = e'.id := List.eq_of_mem_replicate hbe
      subst hb'
      intro hcontr
      exact hne (hcontr ▸ List.mem_map_of_mem (fun e => e.id) he')
    show dedupAdj (List.replicate (cnt e) e.id ++
          catMap (fun e => List.replicate (cnt e) e.id) rest) =
        ((e :: rest).filter (fun e => decide (0 < cnt e))).map (fun e => e.id)
    rw [List.filter_cons]
    cases hc : cnt e with
    | zero =>
      rw [List.replicate_zero, List.nil_append, ih hnd]
      simp
    | succ m =>
      rw [dedupAdj_replicate_append, dedupAdj_cons_of_ne _ _ hall, ih hnd]
      simp

theorem catMap_ite_single {α : Type} (p : α → Prop) [DecidablePred p]
    (f : α → String) (l : List α) :
    catMap (fun e => if p e then [f e] else []) l =
      (l.filter (fun e => decide (p e))).map f := by
  induction l with
  | nil => rfl
  | cons a rest ih =>
    by_cases h : p a <;> simp [catMap, List.filter_cons, h, ih]

theorem cntStr_pos_iff (a : String) (l : List String) :
    0 < cntStr a l ↔ a ∈ l := by
  induction l with
  | nil => simp [cntStr]
  | cons x xs ih =>
    by_cases h : a = x
    · subst h
      simp [cntStr]
    · simp [cntStr, h, ih]

theorem typeCnt_pos_iff (q : String) (e : CEntry) :
    decide (0 < typeCnt q e) = typeMatchesB q e := by
  unfold typeCnt typeMatchesB
  by_cases h : q = typeKeyOf e
  · simp [h]
  · have h' : ¬typeKeyOf e = q := fun hh => h hh.symm
    by_cases hm : q ∈ e.inferred
    · have h1 : 0 < cntStr q e.inferred := (cntStr_pos_iff q e.inferred).mpr hm
      simp [h, h', hm, h1]
    · have h1 : ¬0 < cntStr q e.inferred :=
        fun hc => hm ((cntStr_pos_iff q e.inferred).mp hc)
      simp [h, h', hm, h1]

/-- C7: every identifier in any bucket of the three indexes built by
build_catalog is the id of some entry; by_dbms buckets list exactly the
matching entries' ids in entry order, and (after collapsing the adjacent
duplicates produced by the declared-type/inferred self-confirmation) so do
the by_type and by_tag buckets. -/
theorem index_ids_exist_and_ordered (entries : List CEntry)
    (hids : (entries.map (fun e => e.id)).Nodup) :
    (∀ q id, id ∈ dget (buildIndexes entries).by_type q →
      ∃ e ∈ entries, e.id = id) ∧
    (∀ q id, id ∈ dget (buildIndexes entries).by_dbms q →
      ∃ e ∈ entries, e.id = id) ∧
    (∀ q id, id ∈ dget (buildIndexes entries).by_tag q →
      ∃ e ∈ entries, e.id = id) ∧
    (∀ q, dedupAdj (dget (buildIndexes entries).by_type q) =
      (entries.filter (typeMatchesB q)).map (fun e => e.id)) ∧
    (∀ q, dget (buildIndexes entries).by_dbms q =
      (entries.filter (fun e => dbmsKeyOf e == some q)).map (fun e => e.id)) ∧
    (∀ q, dedupAdj (dget (buildIndexes entries).by_tag q) =
      (entries.filter (fun e => e.tags.contains q)).map (fun e => e.id)) := by
  have hbt : ∀ q, dget (buildIndexes entries).by_type q =
      catMap (fun e => List.replicate (typeCnt q e) e.id) entries := by
    intro q
    show dget ((entries.foldl indexStep ⟨[], [], []⟩).by_type) q = _
    rw [foldl_indexStep_by_type]
    rfl
  have hbd : ∀ q, dget (buildIndexes entries).by_dbms q =
      catMap (fun e => if dbmsKeyOf e = some q then [e.id] else []) entries := by
    intro q
    show dget ((entries.foldl indexStep ⟨[], [], []⟩).by_dbms) q = _
    rw [foldl_indexStep_by_dbms]
    rfl
  have hbg : ∀ q, dget (buildIndexes entries).by_tag q =
      catMap (fun e => List.replicate (cntStr q e.tags) e.id) entries := by
    intro q
    show dget ((entries.foldl indexStep ⟨[], [], []⟩).by_tag) q = _
    rw [foldl_indexStep_by_tag]
    rfl
  refine ⟨?_, ?_, ?_, ?_, ?_, ?_⟩
  · intro q id hid
    rw [hbt q] at hid
    obtain ⟨e, he, hmem⟩ := (mem_catMap _ entries id).mp hid
    exact ⟨e, he, (List.eq_of_mem_replicate hmem).symm⟩
  · intro q id hid
    rw [hbd q] at hid
    obtain ⟨e, he, hmem⟩ := (mem_catMap _ entries id).mp hid
    by_cases h : dbmsKeyOf e = some q
    · rw [if_pos h] at hmem
      exact ⟨e, he, (List.mem_singleton.mp hmem).symm⟩
    · rw [if_neg h] at hmem
      cases hmem
  · intro q id hid
    rw [hbg q] at hid
    obtain ⟨e, he, hmem⟩ := (mem_catMap _ entries id).mp hid
    exact ⟨e, he, (List.eq_of_mem_replicate hmem).symm⟩
  · intro q
    rw [hbt q, dedupAdj_catMap_replicate entries _ hids]
    exact congrArg _ (List.filter_congr (fun e _ => typeCnt_pos_iff q e))
  · intro q
    rw [hbd q, catMap_ite_single]
    refine congrArg _ (List.filter_congr (fun e _ => ?_))
    by_cases h : dbmsKeyOf e = some q <;> simp [h]
  · intro q
    rw [hbg q, dedupAdj_catMap_replicate entries _ hids]
    refine congrArg _ (List.filter_congr (fun e _ => ?_))
    simp [cntStr_pos_iff]

def wCE1 : CEntry :=
  { id := "id1", title := "t1", type := "union_query", dbms := some "MySQL",
    dbms_version := none, vector := some "UNION SELECT 1", examp := none,
    grep := none, level := some 1, risk := some 1, source := "union_query.xml",
    tags := ["dbms:MySQL"], inferred := ["union_query"],
    safety := "non-destructive" }

def wCE2 : CEntry :=
  { id := "id2", title := "t2", type := "time_blind", dbms := some "PostgreSQL",
    dbms_version := none, vector := some "PG_SLEEP(5)", examp := none,
    grep := none, level := some 1, risk := some 3, source := "time_blind.xml",
    tags := ["dbms:PostgreSQL", "response_time_marker"],
    inferred := ["time_blind"], safety := "may-alter-db" }

/-- Witness for C7 on a concrete two-entry catalog whose first entry puts its
id twice under its own type key (declared type plus self-confirming inferred
technique). -/
theorem index_ids_exist_and_ordered_witness :
    (∃ e ∈ [wCE1, wCE2], e.id = "id1") ∧
    dedupAdj (dget (buildIndexes [wCE1, wCE2]).by_type "union_query") =
      ["id1"] ∧
    dget (buildIndexes [wCE1, wCE2]).by_type "union_query" = ["id1", "id1"] ∧
    dget (buildIndexes [wCE1, wCE2]).by_dbms "MySQL" = ["id1"] := by
  have h := index_ids_exist_and_ordered [wCE1, wCE2] (by decide)
  refine ⟨h.1 "union_query" "id1" (by decide), ?_, by decide, ?_⟩
  · rw [h.2.2.2.1 "union_query"]
    decide
  · rw [h.2.2.2.2.1 "MySQL"]
    decide

/-! ### Substring facts shared by the renderer claims -/

theorem stripPre_some (p : List Char) :
    ∀ s r, stripPre p s = some r → s = p ++ r := by
  induction p with
  | nil =>
    intro s r h
    cases h
    rfl
  | cons c cs ih =>
    intro s r h
    cases s with
    | nil => cases h
    | cons d ds =>
      by_cases hcd : c = d
      · subst hcd
        rw [show stripPre (c :: cs) (c :: ds) = stripPre cs ds by simp [stripPre]] at h
        rw [ih ds r h]
        rfl
      · rw [show stripPre (c :: cs) (d :: ds) = none by simp [stripPre, hcd]] at h
        cases h

theorem stripPre_append (p r : List Char) : stripPre p (p ++ r) = some r := by
  induction p with
  | nil => rfl
  | cons c cs ih => simp [stripPre, ih]

theorem stripPre_self (s : List Char) : stripPre s s = some [] := by
  have := stripPre_append s []
  simpa using this

theorem leadOf_iff_stripPre (p s : List Char) :
    (stripPre p s).isSome = true ↔ leadOf p s := by
  constructor
  · intro h
    cases hs : stripPre p s with
    | none => rw [hs] at h; cases h
    | some r => exact ⟨r, stripPre_some p s r hs⟩
  · rintro ⟨v, rfl⟩
    rw [stripPre_append]
    rfl

theorem occursIn_cons_iff (t : List Char) (c : Char) (s : List Char) :
    occursIn t (c :: s) ↔ leadOf t (c :: s) ∨ occursIn t s := by
  constructor
  · rintro ⟨u, v, h⟩
    cases u with
    | nil => exact Or.inl ⟨v, by simpa using h⟩
    | cons c0 u' =>
      have h' : c :: s = c0 :: (u' ++ t ++ v) := by
        simpa [List.append_assoc] using h
      injection h' with h1 h2
      exact Or.inr ⟨u', v, h2⟩
  · rintro (⟨v, h⟩ | ⟨u, v, h⟩)
    · exact ⟨[], v, by simpa using h⟩
    · exact ⟨c :: u, v, by simp [h]⟩

theorem occursIn_nil_iff (t : List Char) : occursIn t [] ↔ t = [] := by
  constructor
  · rintro ⟨u, v, h⟩
    rcases List.append_eq_nil.mp h.symm with ⟨h1, h2⟩
    rcases List.append_eq_nil.mp h1 with ⟨_, h3⟩
    exact h3
  · rintro rfl
    exact ⟨[], [], rfl⟩

theorem listContains_iff (s pat : List Char) :
    listContains s pat = true ↔ occursIn pat s := by
  induction s with
  | nil =>
    show (stripPre pat []).isSome = true ↔ _
    rw [leadOf_iff_stripPre, occursIn_nil_iff]
    constructor
    · rintro ⟨v, h⟩
      rcases List.append_eq_nil.mp h.symm with ⟨h1, _⟩
      exact h1
    · rintro rfl
      exact ⟨[], rfl⟩
  | cons c rest ih =>
    show ((stripPre pat (c :: rest)).isSome || listContains rest pat) = true ↔ _
    rw [Bool.or_eq_true, ih, leadOf_iff_stripPre, occursIn_cons_iff]

theorem occursIn_mem {t s : List Char} {x : Char} (h : occursIn t s)
    (hx : x ∈ t) : x ∈ s := by
  obtain ⟨u, v, rfl⟩ := h
  simp [hx]

theorem leadOf_occursIn {t s : List Char} (h : leadOf t s) : occursIn t s := by
  obtain ⟨v, rfl⟩ := h
  exact ⟨[], v, rfl⟩

theorem replGo_nil (pat rep : List Char) (f : Nat) : replGo pat rep f [] = [] := by
  cases f <;> rfl

theorem listReplace_self (s rep : List Char) (h : s ≠ []) :
    listReplace s s rep = rep := by
  cases s with
  | nil => exact absurd rfl h
  | cons c rest =>
    show replGo (c :: rest) rep (c :: rest).length (c :: rest) = rep
    rw [show (c :: rest).length = rest.length + 1 from rfl]
    simp [replGo, stripPre_self, replGo_nil]

/-! ### Decimal rendering of random.randint values (claim C4) -/

/-- The contract of Python random.randint(a, b): a result N satisfies
a ≤ N ≤ b, both endpoints included (Python library documentation). -/
def randintPossible (a b n : Nat) : Prop := a ≤ n ∧ n ≤ b

instance (a b n : Nat) : Decidable (randintPossible a b n) :=
  inferInstanceAs (Decidable (_ ∧ _))

theorem digitChar_isDigit (m : Nat) (h : m < 10) :
    isDigitChar (Nat.digitChar m) = true := by
  interval_cases m <;> decide

theorem digitChar_toNat (m : Nat) (h : m < 10) :
    (Nat.digitChar m).toNat - 48 = m := by
  interval_cases m <;> decide

theorem natDecGo_zero (f : Nat) (acc : List Char) : natDecGo f 0 acc = acc := by
  cases f <;> rfl

theorem natDecGo_digits :
    ∀ f n (acc : List Char), (∀ c ∈ acc, isDigitChar c = true) →
      ∀ c ∈ natDecGo f n acc, isDigitChar c = true := by
  intro f
  induction f with
  | zero => intro n acc hacc c hc; exact hacc c hc
  | succ f ih =>
    intro n acc hacc c hc
    by_cases hn : n = 0
    · rw [hn, natDecGo_zero] at hc
      exact hacc c hc
    · rw [show natDecGo (f + 1) n acc =
            natDecGo f (n / 10) (Nat.digitChar (n % 10) :: acc) by
          simp [natDecGo, hn]] at hc
      refine ih (n / 10) _ ?_ c hc
      intro d hd
      rcases List.mem_cons.mp hd with rfl | hd'
      · exact digitChar_isDigit _ (Nat.mod_lt n (by omega))
      · exact hacc d hd'

theorem natDecGo_append :
    ∀ f n (acc : List Char), natDecGo f n acc = natDecGo f n [] ++ acc := by
  intro f
  induction f with
  | zero => intro n acc; rfl
  | succ f ih =>
    intro n acc
    by_cases hn : n = 0
    · rw [hn, natDecGo_zero, natDecGo_zero]
      rfl
    · rw [show natDecGo (f + 1) n acc =
            natDecGo f (n / 10) (Nat.digitChar (n % 10) :: acc) by
          simp [natDecGo, hn],
          show natDecGo (f + 1) n [] =
            natDecGo f (n / 10) [Nat.digitChar (n % 10)] by
          simp [natDecGo, hn],
          ih (n / 10) (Nat.digitChar (n % 10) :: acc),
          ih (n / 10) [Nat.digitChar (n % 10)]]
      simp

theorem decValueGo_single (a : Nat) (c : Char) :
    decValueGo a [c] = 10 * a + (c.toNat - 48) := rfl

theorem decValueGo_append (x : List Char) :
    ∀ (a : Nat) (y : List Char), decValueGo a (x ++ y) = decValueGo (decValueGo a x) y := by
  induction x with
  | nil => intro a y; rfl
  | cons c cs ih => intro a y; exact ih _ y

theorem decValueGo_natDecGo :
    ∀ f n a, 1 ≤ n → n ≤ f →
      decValueGo a (natDecGo f n []) =
        a * 10 ^ (natDecGo f n []).length + n := by
  intro f
  induction f with
  | zero => intro n a h1 h2; omega
  | succ f ih =>
    intro n a h1 h2
    have hne : ¬n = 0 := by omega
    rw [show natDecGo (f + 1) n [] =
          natDecGo f (n / 10) [Nat.digitChar (n % 10)] by simp [natDecGo, hne],
        natDecGo_append]
    have hd : (Nat.digitChar (n % 10)).toNat - 48 = n % 10 :=
      digitChar_toNat _ (Nat.mod_lt n (by omega))
    by_cases h10 : n / 10 = 0
    · rw [h10, natDecGo_zero, List.nil_append, decValueGo_single, hd,
          List.length_singleton, pow_one]
      have hlt : n < 10 := by omega
      have hmod : n % 10 = n := Nat.mod_eq_of_lt hlt
      omega
    · have hn10 : 1 ≤ n / 10 := by omega
      have hdiv : n / 10 < n := Nat.div_lt_self (by omega) (by omega)
      have hle : n / 10 ≤ f := by omega
      rw [decValueGo_append, ih (n / 10) a hn10 hle, decValueGo_single, hd,
          List.length_append, List.length_singleton, pow_succ, ← mul_assoc]
      generalize a * 10 ^ (natDecGo f (n / 10) []).length = B
      omega

theorem decValue_natDec (n : Nat) : decValue (natDec n) = n := by
  by_cases h : n = 0
  · subst h
    decide
  · unfold natDec decValue
    rw [if_neg h]
    have := decValueGo_natDecGo n n 0 (by omega) (le_refl n)
    simpa using this

theorem natDec_digits (n : Nat) : ∀ c ∈ natDec n, isDigitChar c = true := by
  by_cases h : n = 0
  · subst h
    decide
  · unfold natDec
    rw [if_neg h]
    exact natDecGo_digits n n [] (by simp)

theorem natDec_ne_nil (n : Nat) : natDec n ≠ [] := by
  by_cases h : n = 0
  · subst h
    decide
  · unfold natDec
    rw [if_neg h,
        show natDecGo n n [] = natDecGo (n - 1) (n / 10) [Nat.digitChar (n % 10)] by
          cases n with
          | zero => exact absurd rfl h
          | succ m => simp [natDecGo, h],
        natDecGo_append]
    simp

/-! ### Whitespace-free strings pass unchanged through the normaliser -/

theorem digit_not_space (c : Char) (h : isDigitChar c = true) :
    pySpace c = false := by
  cases hp : pySpace c
  · rfl
  · exfalso
    have hm : c ∈ pySpaceChars := by simpa [pySpace] using hp
    fin_cases hm <;> exact absurd h (by decide)

theorem lowHex_not_space (c : Char) (h : isLowerHex c = true) :
    pySpace c = false := by
  cases hp : pySpace c
  · rfl
  · exfalso
    have hm : c ∈ pySpaceChars := by simpa [pySpace] using hp
    fin_cases hm <;> exact absurd h (by decide)

theorem not_space_not_lb (c : Char) (h : pySpace c = false) : isLB c = false := by
  cases hl : isLB c
  · rfl
  · exfalso
    have hm : c ∈ lineBreakChars := by simpa [isLB] using hl
    fin_cases hm <;> exact absurd h (by decide)

theorem splitLinesGo_nil (f : Nat) : splitLinesGo f [] = [] := by
  cases f <;> rfl

theorem splitLinesGo_cons (f : Nat) (c : Char) (rest : List Char) :
    splitLinesGo (f + 1) (c :: rest) =
      if c = '\r' then
        (match rest with
         | '\n' :: r => [] :: splitLinesGo f r
         | _ => [] :: splitLinesGo f rest)
      else if isLB c then [] :: splitLinesGo f rest
      else consHead c (splitLinesGo f rest) := rfl

theorem splitLinesGo_noLB :
    ∀ f (s : List Char), s.length ≤ f → s ≠ [] →
      (∀ c ∈ s, isLB c = false) → splitLinesGo f s = [s] := by
  intro f
  induction f with
  | zero =>
    intro s hf hne _
    cases s with
    | nil => exact absurd rfl hne
    | cons c rest => simp at hf
  | succ f ih =>
    intro s hf hne hlb
    cases s with
    | nil => exact absurd rfl hne
    | cons c rest =>
      have hc : isLB c = false := hlb c (List.mem_cons_self c rest)
      have hcr : ¬c = '\r' := by
        intro hcontr
        rw [hcontr] at hc
        exact absurd hc (by decide)
      rw [splitLinesGo_cons, if_neg hcr, if_neg (by simp [hc])]
      cases rest with
      | nil =>
        rw [splitLinesGo_nil]
        rfl
      | cons d rest' =>
        rw [ih (d :: rest') (by simpa using hf) (by simp)
              (fun x hx => hlb x (List.mem_cons_of_mem c hx))]
        rfl

theorem pyStripL_noWS (s : List Char) (h : ∀ c ∈ s, pySpace c = false) :
    pyStripL s = s := by
  cases s with
  | nil => rfl
  | cons c rest =>
    show (c :: rest).dropWhile pySpace = c :: rest
    rw [List.dropWhile_cons, if_neg]
    simp [h c (List.mem_cons_self c rest)]

theorem pyStripR_noWS (s : List Char) (h : ∀ c ∈ s, pySpace c = false) :
    pyStripR s = s := by
  unfold pyStripR
  rw [show s.reverse.dropWhile pySpace = s.reverse from
        pyStripL_noWS s.reverse (fun c hc => h c (List.mem_reverse.mp hc)),
      List.reverse_reverse]

theorem pyTrim_noWS (s : List Char) (h : ∀ c ∈ s, pySpace c = false) :
    pyTrim s = s := by
  unfold pyTrim
  rw [show pyStripL s = s from pyStripL_noWS s h, pyStripR_noWS s h]

theorem collapseGo_noWS :
    ∀ (s : List Char) (b : Bool), (∀ c ∈ s, pySpace c = false) →
      collapseGo b s = s := by
  intro s
  induction s with
  | nil => intro b _; rfl
  | cons c rest ih =>
    intro b h
    have hc : pySpace c = false := h c (List.mem_cons_self c rest)
    show (if pySpace c then _ else c :: collapseGo false rest) = c :: rest
    rw [if_neg (by simp [hc]), ih false (fun x hx => h x (List.mem_cons_of_mem c hx))]

theorem normalizeWS_noWS (s : List Char) (hne : s ≠ [])
    (h : ∀ c ∈ s, pySpace c = false) : normalizeWS s = s := by
  unfold normalizeWS splitLines
  rw [splitLinesGo_noLB s.length s (le_refl _) hne
        (fun c hc => not_space_not_lb c (h c hc)),
      show List.map pyTrim [s] = [pyTrim s] from rfl, pyTrim_noWS s h,
      show joinNL [s] = s from rfl]
  exact collapseGo_noWS s false h

/-! ### Claim C4: the auto-filled RANDNUM / RANDSTR values -/

theorem render_randnum_eq (n : Nat) (hex : List Char) :
    render "[RANDNUM]".toList [] n hex = natDec n := by
  have h1 : listReplace "[RANDNUM]".toList (bracketTok rnName) (natDec n) =
      natDec n := by
    rw [show bracketTok rnName = "[RANDNUM]".toList from by decide]
    exact listReplace_self _ _ (by decide)
  have h2 : listContains (natDec n) (bracketTok rsName) = false := by
    cases hlc : listContains (natDec n) (bracketTok rsName)
    · rfl
    · exfalso
      have ho := (listContains_iff _ _).mp hlc
      have hbr : '[' ∈ natDec n := occursIn_mem ho (by decide)
      exact absurd (natDec_digits n '[' hbr) (by decide)
  simp only [render]
  rw [if_neg (by decide : ¬("[RANDNUM]".toList : List Char) = [])]
  simp only [List.foldl_nil]
  rw [if_pos (by decide :
        (listContains "[RANDNUM]".toList (bracketTok rnName) &&
          !ctxHasKey [] rnName) = true), h1,
      if_neg (by simp [h2])]
  exact normalizeWS_noWS _ (natDec_ne_nil n)
    (fun c hc => digit_not_space c (natDec_digits n c hc))

theorem render_randstr_eq (n : Nat) (hex : List Char)
    (hhx : ∀ c ∈ hex, isLowerHex c = true) (hlen : hex.length = 32) :
    render "[RANDSTR]".toList [] n hex = hex.take 8 := by
  simp only [render]
  rw [if_neg (by decide : ¬("[RANDSTR]".toList : List Char) = [])]
  simp only [List.foldl_nil]
  rw [if_neg (by decide :
        ¬(listContains "[RANDSTR]".toList (bracketTok rnName) &&
            !ctxHasKey [] rnName) = true),
      if_pos (by decide :
        (listContains "[RANDSTR]".toList (bracketTok rsName) &&
          !ctxHasKey [] rsName) = true),
      show listReplace "[RANDSTR]".toList (bracketTok rsName) (hex.take 8) =
          hex.take 8 by
        rw [show bracketTok rsName = "[RANDSTR]".toList from by decide]
        exact listReplace_self _ _ (by decide)]
  refine normalizeWS_noWS _ ?_ ?_
  · intro hc
    have : (hex.take 8).length = 0 := by rw [hc]; rfl
    rw [List.length_take, hlen] at this
    omega
  · intro c hc
    exact lowHex_not_space c (hhx c (List.take_subset 8 hex hc))

/-- C4 counterexample: random.randint(1000, 9999) includes 9999 (Python's
randint is inclusive at both ends), and rendering a remaining [RANDNUM] with
that value produces "9999", whose value violates the claimed bound n < 9999. -/
theorem randnum_range_counterexample :
    randintPossible 1000 9999 9999 ∧
    render "[RANDNUM]".toList [] 9999 [] = "9999".toList ∧
    ¬(9999 < 9999) :=
  ⟨by decide, by decide, by decide⟩

/-- C4 as amended: every auto-filled RANDNUM replacement is the decimal
numeral of the one generated n with 1000 ≤ n ≤ 9999 (upper endpoint included,
matching randint's inclusive contract), and every RANDSTR replacement is the
first 8 lowercase hexadecimal characters of the generated uuid hex. -/
theorem randnum_randstr_autofill (n : Nat) (hex : List Char)
    (hn : randintPossible 1000 9999 n) (hlen : hex.length = 32)
    (hhx : ∀ c ∈ hex, isLowerHex c = true) :
    1000 ≤ n ∧ n ≤ 9999 ∧
    render "[RANDNUM]".toList [] n hex = natDec n ∧
    (∀ c ∈ natDec n, isDigitChar c = true) ∧
    decValue (natDec n) = n ∧
    render "[RANDSTR]".toList [] n hex = hex.take 8 ∧
    (hex.take 8).length = 8 ∧
    (∀ c ∈ hex.take 8, isLowerHex c = true) := by
  refine ⟨hn.1, hn.2, render_randnum_eq n hex, natDec_digits n,
          decValue_natDec n, render_randstr_eq n hex hhx hlen, ?_, ?_⟩
  · rw [List.length_take, hlen]
    omega
  · intro c hc
    exact hhx c (List.take_subset 8 hex hc)

/-- Witness for the amended C4 at a concrete generated pair. -/
theorem randnum_randstr_autofill_witness :
    render "[RANDNUM]".toList [] 4242
        "00112233445566778899aabbccddeeff".toList = "4242".toList ∧
    render "[RANDSTR]".toList [] 4242
        "00112233445566778899aabbccddeeff".toList = "00112233".toList := by
  have h := randnum_randstr_autofill 4242
    "00112233445566778899aabbccddeeff".toList (by decide) (by decide) (by decide)
  exact ⟨h.2.2.1.trans (by decide), h.2.2.2.2.2.1.trans (by decide)⟩

/-! ### Claim C5: survival of unresolved placeholders through str.replace

A placeholder token `[N]` with a bracket-free name can never overlap an
occurrence of a different token `[K]`, so every str.replace performed by the
renderer leaves it in place. -/

/-- The name contains neither bracket. -/
def noBr (l : List Char) : Prop := ∀ c ∈ l, c ≠ '[' ∧ c ≠ ']'

/-- No character of the list is Python whitespace. -/
def noWSp (l : List Char) : Prop := ∀ c ∈ l, pySpace c = false

instance (l : List Char) : Decidable (noBr l) :=
  inferInstanceAs (Decidable (∀ c ∈ l, c ≠ '[' ∧ c ≠ ']'))

instance (l : List Char) : Decidable (noWSp l) :=
  inferInstanceAs (Decidable (∀ c ∈ l, pySpace c = false))

theorem leadOf_cons_inj {a b : Char} {l m : List Char}
    (h : leadOf (a :: l) (b :: m)) : a = b ∧ leadOf l m := by
  obtain ⟨v, hv⟩ := h
  injection hv with h1 h2
  exact ⟨h1.symm, v, h2⟩

theorem rbracket_lead_uniq :
    ∀ (X : List Char), noBr X → ∀ (Y z : List Char), noBr Y →
      leadOf (X ++ [']']) z → leadOf (Y ++ [']']) z → X = Y := by
  intro X
  induction X with
  | nil =>
    intro _ Y z hY hX hYl
    cases Y with
    | nil => rfl
    | cons y Y' =>
      exfalso
      obtain ⟨v, hv⟩ := hX
      subst hv
      obtain ⟨h1, _⟩ := leadOf_cons_inj hYl
      exact (hY y (List.mem_cons_self y Y')).2 h1
  | cons x X' ih =>
    intro hX Y z hY hXl hYl
    cases Y with
    | nil =>
      exfalso
      obtain ⟨v, hv⟩ := hYl
      subst hv
      obtain ⟨h1, _⟩ := leadOf_cons_inj hXl
      exact (hX x (List.mem_cons_self x X')).2 h1
    | cons y Y' =>
      cases z with
      | nil =>
        obtain ⟨v, hv⟩ := hXl
        cases hv
      | cons c z' =>
        obtain ⟨hx, hXl'⟩ := leadOf_cons_inj hXl
        obtain ⟨hy, hYl'⟩ := leadOf_cons_inj hYl
        have hX' : noBr X' := fun a ha => hX a (List.mem_cons_of_mem x ha)
        have hY' : noBr Y' := fun a ha => hY a (List.mem_cons_of_mem y ha)
        rw [ih hX' Y' z' hY' hXl' hYl', hx, ← hy]

theorem bracketTok_lead_uniq {N K z : List Char} (hN : noBr N) (hK : noBr K)
    (h1 : leadOf (bracketTok N) z) (h2 : leadOf (bracketTok K) z) : N = K := by
  cases z with
  | nil =>
    obtain ⟨v, hv⟩ := h1
    cases hv
  | cons c z' =>
    obtain ⟨_, h1'⟩ := leadOf_cons_inj h1
    obtain ⟨_, h2'⟩ := leadOf_cons_inj h2
    exact rbracket_lead_uniq N hN K z' hK h1' h2'

theorem tailPart_cons_elim {q : List Char} {a : Char} {l : List Char}
    (h : tailPart q (a :: l)) : q = a :: l ∨ tailPart q l := by
  obtain ⟨u, hu⟩ := h
  cases u with
  | nil => exact Or.inl hu.symm
  | cons a0 u' =>
    injection hu with h1 h2
    exact Or.inr ⟨u', h2⟩

theorem tailPart_subset {q l : List Char} (h : tailPart q l) :
    ∀ x ∈ q, x ∈ l := by
  obtain ⟨u, rfl⟩ := h
  intro x hx
  simp [hx]

theorem tailPart_tail {q' : List Char} {c : Char} {l : List Char}
    (h : tailPart (c :: q') l) : tailPart q' l := by
  obtain ⟨u, rfl⟩ := h
  exact ⟨u ++ [c], by simp⟩

theorem occursIn_append_elim {N K : List Char} (hN : noBr N) (hK : noBr K)
    (hNK : N ≠ K) :
    ∀ (q : List Char), tailPart q (bracketTok K) →
      ∀ s', occursIn (bracketTok N) (q ++ s') → occursIn (bracketTok N) s' := by
  intro q
  induction q with
  | nil =>
    intro _ s' h
    simpa using h
  | cons c q' ih =>
    intro hq s' h
    rcases (occursIn_cons_iff _ c (q' ++ s')).mp h with hlead | hocc
    · exfalso
      rcases tailPart_cons_elim hq with heq | htail
      · have hKl : leadOf (bracketTok K) ((c :: q') ++ s') :=
          ⟨s', by rw [heq]; rfl⟩
        exact hNK (bracketTok_lead_uniq hN hK hlead hKl)
      · have hc : c ∈ K ++ [']'] :=
          tailPart_subset htail c (List.mem_cons_self c q')
        have hcne : c ≠ '[' := by
          rcases List.mem_append.mp hc with hcK | hcR
          · exact (hK c hcK).1
          · rw [List.mem_singleton.mp hcR]
            decide
        obtain ⟨hhead, _⟩ := leadOf_cons_inj hlead
        exact hcne hhead.symm
    · exact ih (tailPart_tail hq) s' hocc

theorem replGo_cons_no_match (pat rep : List Char) (f : Nat) (c : Char)
    (rest : List Char) (h : stripPre pat (c :: rest) = none) :
    replGo pat rep (f + 1) (c :: rest) = c :: replGo pat rep f rest := by
  cases pat with
  | nil => exact absurd h (by simp [stripPre])
  | cons p ps => simp [replGo, h]

theorem replGo_cons_match (pat rep : List Char) (f : Nat) (c : Char)
    (rest s' : List Char) (hpat : pat ≠ [])
    (h : stripPre pat (c :: rest) = some s') :
    replGo pat rep (f + 1) (c :: rest) = rep ++ replGo pat rep f s' := by
  cases pat with
  | nil => exact absurd rfl hpat
  | cons p ps => simp [replGo, h]

theorem stripPre_bracket_none {K : List Char} {c : Char} {rest : List Char}
    (h : c ≠ '[') : stripPre (bracketTok K) (c :: rest) = none := by
  show (if '[' = c then stripPre (K ++ [']']) rest else none) = none
  rw [if_neg (fun hh => h hh.symm)]

theorem replGo_lead_rbracket (K rep : List Char) :
    ∀ (u : List Char), (∀ c ∈ u, c ≠ '[') →
      ∀ f (s : List Char), s.length ≤ f → leadOf (u ++ [']']) s →
        leadOf (u ++ [']']) (replGo (bracketTok K) rep f s) := by
  intro u
  induction u with
  | nil =>
    intro _ f s hf hs
    obtain ⟨v, rfl⟩ := hs
    simp only [List.nil_append, List.cons_append] at hf ⊢
    cases f with
    | zero => simp at hf
    | succ f =>
      rw [replGo_cons_no_match _ _ _ _ _ (stripPre_bracket_none (by decide))]
      exact ⟨replGo (bracketTok K) rep f v, rfl⟩
  | cons c u' ih =>
    intro hu f s hf hs
    obtain ⟨v, rfl⟩ := hs
    cases f with
    | zero => simp at hf
    | succ f =>
      have hc : c ≠ '[' := (hu c (List.mem_cons_self c u'))
      rw [show ((c :: u') ++ [']'] ++ v : List Char) = c :: (u' ++ [']'] ++ v)
            from by simp,
          replGo_cons_no_match _ _ _ _ _ (stripPre_bracket_none hc)]
      have hlen : (u' ++ [']'] ++ v).length ≤ f := by
        have : ((c :: u') ++ [']'] ++ v).length ≤ f + 1 := hf
        simp at this ⊢
        omega
      obtain ⟨w, hw⟩ := ih (fun a ha => hu a (List.mem_cons_of_mem c ha)) f
        (u' ++ [']'] ++ v) hlen ⟨v, by simp⟩
      exact ⟨w, by rw [show (c :: u') ++ [']'] = c :: (u' ++ [']']) from rfl,
                      List.cons_append, ← hw]⟩

theorem replGo_lead_tok {N K : List Char} (rep : List Char) (hN : noBr N)
    (hK : noBr K) (hNK : N ≠ K) :
    ∀ f (s : List Char), s.length ≤ f → leadOf (bracketTok N) s →
      leadOf (bracketTok N) (replGo (bracketTok K) rep f s) := by
  intro f s hf hs
  obtain ⟨v, rfl⟩ := hs
  cases f with
  | zero => simp [bracketTok] at hf
  | succ f =>
    cases hsp : stripPre (bracketTok K) (bracketTok N ++ v) with
    | some s'' =>
      exfalso
      refine hNK (bracketTok_lead_uniq hN hK ⟨v, rfl⟩ ?_)
      exact ⟨s'', stripPre_some _ _ _ hsp⟩
    | none =>
      rw [show (bracketTok N ++ v : List Char) = '[' :: (N ++ [']'] ++ v)
            from by simp [bracketTok]] at hsp ⊢
      rw [replGo_cons_no_match _ _ _ _ _ hsp]
      have hlen : (N ++ [']'] ++ v).length ≤ f := by
        have : ('[' :: (N ++ [']'] ++ v)).length ≤ f + 1 := hf
        simp at this ⊢
        omega
      obtain ⟨w, hw⟩ := replGo_lead_rbracket K rep N
        (fun c hc => (hN c hc).1) f (N ++ [']'] ++ v) hlen ⟨v, by simp⟩
      exact ⟨w, by rw [show (bracketTok N : List Char) = '[' :: (N ++ [']'])
                         from rfl, List.cons_append, ← hw]⟩

theorem occursIn_cons_of {t : List Char} {s : List Char} (c : Char)
    (h : occursIn t s) : occursIn t (c :: s) := by
  obtain ⟨u, v, rfl⟩ := h
  exact ⟨c :: u, v, rfl⟩

theorem occursIn_append_left {t s : List Char} (x : List Char)
    (h : occursIn t s) : occursIn t (x ++ s) := by
  obtain ⟨u, v, rfl⟩ := h
  exact ⟨x ++ u, v, by simp⟩

theorem occursIn_append_right {t s : List Char} (x : List Char)
    (h : occursIn t s) : occursIn t (s ++ x) := by
  obtain ⟨u, v, rfl⟩ := h
  exact ⟨u, v ++ x, by simp⟩

theorem bracketTok_ne_nil (N : List Char) : bracketTok N ≠ [] := by
  simp [bracketTok]

theorem replGo_occursIn {N K : List Char} (rep : List Char) (hN : noBr N)
    (hK : noBr K) (hNK : N ≠ K) :
    ∀ f (s : List Char), s.length ≤ f → occursIn (bracketTok N) s →
      occursIn (bracketTok N) (replGo (bracketTok K) rep f s) := by
  intro f
  induction f with
  | zero =>
    intro s hf hs
    have : s = [] := List.length_eq_zero.mp (by omega)
    subst this
    exact absurd ((occursIn_nil_iff _).mp hs) (bracketTok_ne_nil N)
  | succ f ih =>
    intro s hf hs
    cases s with
    | nil => exact absurd ((occursIn_nil_iff _).mp hs) (bracketTok_ne_nil N)
    | cons c rest =>
      cases hsp : stripPre (bracketTok K) (c :: rest) with
      | some s' =>
        have hdec : c :: rest = bracketTok K ++ s' := stripPre_some _ _ _ hsp
        rw [replGo_cons_match _ _ _ _ _ _ (bracketTok_ne_nil K) hsp]
        refine occursIn_append_left rep (ih s' ?_ ?_)
        · have h1 : (c :: rest).length = (bracketTok K).length + s'.length := by
            rw [hdec, List.length_append]
          have h2 : 1 ≤ (bracketTok K).length := by simp [bracketTok]
          have h3 : (c :: rest).length ≤ f + 1 := hf
          omega
        · rw [hdec] at hs
          exact occursIn_append_elim hN hK hNK (bracketTok K) ⟨[], rfl⟩ s' hs
      | none =>
        rcases (occursIn_cons_iff _ c rest).mp hs with hlead | hocc
        · exact leadOf_occursIn
            (replGo_lead_tok rep hN hK hNK (f + 1) (c :: rest) hf hlead)
        · rw [replGo_cons_no_match _ _ _ _ _ hsp]
          exact occursIn_cons_of c
            (ih rest (by simpa using Nat.le_of_succ_le_succ hf) hocc)

theorem listReplace_occursIn {N K : List Char} (rep : List Char) (hN : noBr N)
    (hK : noBr K) (hNK : N ≠ K) (s : List Char)
    (h : occursIn (bracketTok N) s) :
    occursIn (bracketTok N) (listReplace s (bracketTok K) rep) :=
  replGo_occursIn rep hN hK hNK s.length s (le_refl _) h

/-! ### Whitespace-free tokens survive the whitespace normaliser -/

theorem not_lead_of_head {t : List Char} {p : Char → Bool}
    (hlb : ∀ c ∈ t, p c = false) (hne : t ≠ []) {c : Char} (hc : p c = true)
    {rest : List Char} : ¬leadOf t (c :: rest) := by
  intro h
  cases t with
  | nil => exact hne rfl
  | cons x t' =>
    obtain ⟨hx, _⟩ := leadOf_cons_inj h
    have := hlb x (List.mem_cons_self x t')
    rw [hx, hc] at this
    cases this

theorem splitLinesGo_cr_nl (f : Nat) (r : List Char) :
    splitLinesGo (f + 1) ('\r' :: '\n' :: r) = [] :: splitLinesGo f r := rfl

theorem splitLinesGo_cr_other (f : Nat) (d : Char) (r' : List Char)
    (hd : d ≠ '\n') :
    splitLinesGo (f + 1) ('\r' :: d :: r') = [] :: splitLinesGo f (d :: r') := by
  rw [splitLinesGo_cons, if_pos rfl]
  split
  · next r heq =>
    injection heq with h1 _
    exact absurd h1 hd
  · rfl

theorem splitLinesGo_cr_nil (f : Nat) :
    splitLinesGo (f + 1) ['\r'] = [[]] := by
  rw [splitLinesGo_cons, if_pos rfl]
  show ([] : List Char) :: splitLinesGo f [] = [[]]
  rw [splitLinesGo_nil]

theorem splitLinesGo_ne_nil :
    ∀ f (s : List Char), s ≠ [] → s.length ≤ f →
      ∃ ℓ ls, splitLinesGo f s = ℓ :: ls := by
  intro f s hne hf
  cases f with
  | zero =>
    cases s with
    | nil => exact absurd rfl hne
    | cons c r => simp at hf
  | succ f =>
    cases s with
    | nil => exact absurd rfl hne
    | cons c rest =>
      by_cases hcr : c = '\r'
      · subst hcr
        cases rest with
        | nil => exact ⟨[], [], splitLinesGo_cr_nil f⟩
        | cons d r' =>
          by_cases hd : d = '\n'
          · subst hd
            exact ⟨[], _, splitLinesGo_cr_nl f r'⟩
          · exact ⟨[], _, splitLinesGo_cr_other f d r' hd⟩
      · rw [splitLinesGo_cons, if_neg hcr]
        by_cases hlb : isLB c = true
        · rw [if_pos hlb]
          exact ⟨[], _, rfl⟩
        · rw [if_neg hlb]
          cases hsp : splitLinesGo f rest with
          | nil => exact ⟨[c], [], rfl⟩
          | cons l0 ls => exact ⟨c :: l0, ls, rfl⟩

theorem splitLinesGo_lead_head :
    ∀ (t : List Char), (∀ c ∈ t, isLB c = false) →
      ∀ f (s : List Char), s ≠ [] → s.length ≤ f → leadOf t s →
        ∃ ℓ ls, splitLinesGo f s = ℓ :: ls ∧ leadOf t ℓ := by
  intro t
  induction t with
  | nil =>
    intro _ f s hne hf _
    obtain ⟨ℓ, ls, h⟩ := splitLinesGo_ne_nil f s hne hf
    exact ⟨ℓ, ls, h, ⟨ℓ, rfl⟩⟩
  | cons x t' ih =>
    intro hlb f s hne hf hs
    obtain ⟨v, rfl⟩ := hs
    have hx : isLB x = false := hlb x (List.mem_cons_self x t')
    have hxr : ¬x = '\r' := by
      intro hh
      rw [hh] at hx
      exact absurd hx (by decide)
    cases f with
    | zero => simp at hf
    | succ f =>
      rw [show ((x :: t') ++ v : List Char) = x :: (t' ++ v) from rfl,
          splitLinesGo_cons, if_neg hxr, if_neg (by simp [hx])]
      by_cases hq : t' ++ v = []
      · rw [hq, splitLinesGo_nil]
        refine ⟨[x], [], rfl, ?_⟩
        have ht' : t' = [] := (List.append_eq_nil.mp hq).1
        subst ht'
        exact ⟨[], rfl⟩
      · have hlen : (t' ++ v).length ≤ f := by
          have : (x :: (t' ++ v)).length ≤ f + 1 := by simpa using hf
          simpa using this
        obtain ⟨ℓ, ls, hsp, hld⟩ := ih
          (fun c hc => hlb c (List.mem_cons_of_mem x hc)) f (t' ++ v) hq hlen
          ⟨v, rfl⟩
        rw [hsp]
        refine ⟨x :: ℓ, ls, rfl, ?_⟩
        obtain ⟨w, hw⟩ := hld
        exact ⟨w, by rw [hw]; rfl⟩

theorem splitLinesGo_occursIn :
    ∀ f (s t : List Char), (∀ c ∈ t, isLB c = false) → t ≠ [] →
      s.length ≤ f → occursIn t s →
      ∃ ℓ ∈ splitLinesGo f s, occursIn t ℓ := by
  intro f
  induction f with
  | zero =>
    intro s t _ hne hf hocc
    have hs : s = [] := List.length_eq_zero.mp (by omega)
    subst hs
    exact absurd ((occursIn_nil_iff t).mp hocc) hne
  | succ f ih =>
    intro s t hlb hne hf hocc
    cases s with
    | nil => exact absurd ((occursIn_nil_iff t).mp hocc) hne
    | cons c rest =>
      by_cases hcr : c = '\r'
      · subst hcr
        have hocc' : occursIn t rest := by
          rcases (occursIn_cons_iff t _ rest).mp hocc with hlead | h
          · exact absurd hlead (not_lead_of_head hlb hne (by decide))
          · exact h
        cases rest with
        | nil => exact absurd ((occursIn_nil_iff t).mp hocc') hne
        | cons d r' =>
          by_cases hd : d = '\n'
          · subst hd
            have hocc'' : occursIn t r' := by
              rcases (occursIn_cons_iff t _ r').mp hocc' with hlead | h
              · exact absurd hlead (not_lead_of_head hlb hne (by decide))
              · exact h
            rw [splitLinesGo_cr_nl]
            obtain ⟨ℓ, hm, ho⟩ := ih r' t hlb hne (by simp at hf; omega) hocc''
            exact ⟨ℓ, List.mem_cons_of_mem [] hm, ho⟩
          · rw [splitLinesGo_cr_other f d r' hd]
            obtain ⟨ℓ, hm, ho⟩ := ih (d :: r') t hlb hne
              (by simp at hf ⊢; omega) hocc'
            exact ⟨ℓ, List.mem_cons_of_mem [] hm, ho⟩
      · by_cases hlbc : isLB c = true
        · have hocc' : occursIn t rest := by
            rcases (occursIn_cons_iff t c rest).mp hocc with hlead | h
            · exact absurd hlead (not_lead_of_head hlb hne hlbc)
            · exact h
          rw [splitLinesGo_cons, if_neg hcr, if_pos hlbc]
          obtain ⟨ℓ, hm, ho⟩ := ih rest t hlb hne (by simpa using hf) hocc'
          exact ⟨ℓ, List.mem_cons_of_mem [] hm, ho⟩
        · rcases (occursIn_cons_iff t c rest).mp hocc with hlead | hocc'
          · obtain ⟨ℓ, ls, hsp, hld⟩ := splitLinesGo_lead_head t hlb (f + 1)
              (c :: rest) (by simp) hf hlead
            refine ⟨ℓ, ?_, leadOf_occursIn hld⟩
            rw [hsp]
            exact List.mem_cons_self ℓ ls
          · rw [splitLinesGo_cons, if_neg hcr, if_neg (by simp [hlbc])]
            obtain ⟨ℓ, hm, ho⟩ := ih rest t hlb hne (by simpa using hf) hocc'
            cases hsp : splitLinesGo f rest with
            | nil =>
              rw [hsp] at hm
              cases hm
            | cons l0 ls =>
              rw [hsp] at hm
              rcases List.mem_cons.mp hm with rfl | hm'
              · exact ⟨c :: ℓ, List.mem_cons_self _ ls, occursIn_cons_of c ho⟩
              · exact ⟨ℓ, List.mem_cons_of_mem _ hm', ho⟩

theorem dropWhile_occursIn (t : List Char) (hws : noWSp t) (hne : t ≠ []) :
    ∀ s, occursIn t s → occursIn t (s.dropWhile pySpace) := by
  intro s
  induction s with
  | nil =>
    intro h
    exact absurd ((occursIn_nil_iff t).mp h) hne
  | cons c rest ih =>
    intro h
    by_cases hc : pySpace c = true
    · rw [List.dropWhile_cons, if_pos hc]
      refine ih ?_
      rcases (occursIn_cons_iff t c rest).mp h with hlead | hocc
      · exact absurd hlead (not_lead_of_head hws hne hc)
      · exact hocc
    · rw [List.dropWhile_cons, if_neg hc]
      exact h

theorem reverse_occursIn {t s : List Char} (h : occursIn t s) :
    occursIn t.reverse s.reverse := by
  obtain ⟨u, v, rfl⟩ := h
  exact ⟨v.reverse, u.reverse, by simp⟩

theorem pyTrim_occursIn (t : List Char) (hws : noWSp t) (hne : t ≠ [])
    (ℓ : List Char) (h : occursIn t ℓ) : occursIn t (pyTrim ℓ) := by
  unfold pyTrim pyStripR pyStripL
  have h1 := dropWhile_occursIn t hws hne ℓ h
  have h2 := reverse_occursIn h1
  have h3 := dropWhile_occursIn t.reverse
    (fun c hc => hws c (List.mem_reverse.mp hc))
    (by simpa using hne) _ h2
  have h4 := reverse_occursIn h3
  simpa using h4

theorem joinNL_occursIn (t : List Char) :
    ∀ (ls : List (List Char)) (ℓ : List Char), ℓ ∈ ls → occursIn t ℓ →
      occursIn t (joinNL ls) := by
  intro ls
  induction ls with
  | nil =>
    intro ℓ hm _
    cases hm
  | cons l rest ih =>
    intro ℓ hm ho
    cases rest with
    | nil =>
      rw [List.mem_singleton.mp hm] at ho
      exact ho
    | cons l2 rest' =>
      rw [show joinNL (l :: l2 :: rest') = l ++ '\n' :: joinNL (l2 :: rest')
            from rfl]
      rcases List.mem_cons.mp hm with rfl | hm'
      · exact occursIn_append_right _ ho
      · exact occursIn_append_left l (occursIn_cons_of '\n' (ih ℓ hm' ho))

theorem collapseGo_cons (b : Bool) (c : Char) (rest : List Char) :
    collapseGo b (c :: rest) =
      if pySpace c then
        (if b then collapseGo true rest
         else match rest with
              | d :: _ => if pySpace d then ' ' :: collapseGo true rest
                          else c :: collapseGo false rest
              | [] => [c])
      else c :: collapseGo false rest := rfl

theorem collapseGo_lead (t : List Char) (hws : noWSp t) :
    ∀ (s : List Char) (b : Bool), leadOf t s → leadOf t (collapseGo b s) := by
  induction t with
  | nil =>
    intro s b _
    exact ⟨collapseGo b s, rfl⟩
  | cons x t' ih =>
    intro s b hs
    obtain ⟨v, rfl⟩ := hs
    have hx : pySpace x = false := hws x (List.mem_cons_self x t')
    rw [show ((x :: t') ++ v : List Char) = x :: (t' ++ v) from rfl,
        collapseGo_cons, if_neg (by simp [hx])]
    obtain ⟨w, hw⟩ := ih (fun c hc => hws c (List.mem_cons_of_mem x hc))
      (t' ++ v) false ⟨v, rfl⟩
    exact ⟨w, by rw [hw]; rfl⟩

theorem collapseGo_occursIn (t : List Char) (hws : noWSp t) (hne : t ≠ []) :
    ∀ (s : List Char), occursIn t s → ∀ b, occursIn t (collapseGo b s) := by
  intro s
  induction s with
  | nil =>
    intro h _
    exact absurd ((occursIn_nil_iff t).mp h) hne
  | cons c rest ih =>
    intro h b
    by_cases hc : pySpace c = true
    · have hocc : occursIn t rest := by
        rcases (occursIn_cons_iff t c rest).mp h with hlead | hocc
        · exact absurd hlead (not_lead_of_head hws hne hc)
        · exact hocc
      rw [collapseGo_cons, if_pos hc]
      cases b with
      | true =>
        rw [if_pos rfl]
        exact ih hocc true
      | false =>
        rw [if_neg (by decide)]
        cases rest with
        | nil => exact absurd ((occursIn_nil_iff t).mp hocc) hne
        | cons d r' =>
          by_cases hd : pySpace d = true
          · rw [show (match d :: r' with
                      | e :: _ => if pySpace e then ' ' :: collapseGo true (d :: r')
                                  else c :: collapseGo false (d :: r')
                      | [] => [c]) =
                  if pySpace d then ' ' :: collapseGo true (d :: r')
                  else c :: collapseGo false (d :: r') from rfl,
                if_pos hd]
            exact occursIn_cons_of ' ' (ih hocc true)
          · rw [show (match d :: r' with
                      | e :: _ => if pySpace e then ' ' :: collapseGo true (d :: r')
                                  else c :: collapseGo false (d :: r')
                      | [] => [c]) =
                  if pySpace d then ' ' :: collapseGo true (d :: r')
                  else c :: collapseGo false (d :: r') from rfl,
                if_neg hd]
            exact occursIn_cons_of c (ih hocc false)
    · rcases (occursIn_cons_iff t c rest).mp h with hlead | hocc
      · exact leadOf_occursIn (collapseGo_lead t hws (c :: rest) b hlead)
      · rw [collapseGo_cons, if_neg hc]
        exact occursIn_cons_of c (ih hocc false)

theorem normalizeWS_occursIn (t s : List Char) (hws : noWSp t) (hne : t ≠ [])
    (h : occursIn t s) : occursIn t (normalizeWS s) := by
  unfold normalizeWS splitLines
  have hlb : ∀ c ∈ t, isLB c = false :=
    fun c hc => not_space_not_lb c (hws c hc)
  obtain ⟨ℓ, hm, ho⟩ := splitLinesGo_occursIn s.length s t hlb hne (le_refl _) h
  exact collapseGo_occursIn t hws hne _
    (joinNL_occursIn t _ _ (List.mem_map_of_mem pyTrim hm)
      (pyTrim_occursIn t hws hne ℓ ho)) false

/-! ### Claim C5: the renderer is total and passes unresolved tokens through -/

theorem ite_listReplace_occursIn {name K : List Char} (hN : noBr name)
    (hK : noBr K) (hne : name ≠ K) (rep : List Char) (cond : Bool)
    (out : List Char) (h : occursIn (bracketTok name) out) :
    occursIn (bracketTok name)
      (if cond then listReplace out (bracketTok K) rep else out) := by
  cases cond
  · simpa using h
  · simpa using listReplace_occursIn rep hN hK hne out h

theorem foldl_ctx_occursIn (name : List Char) (hN : noBr name) :
    ∀ (ctx : List (List Char × List Char)) (out : List Char),
      (∀ kv ∈ ctx, kv.1 ≠ name ∧ noBr kv.1) →
      occursIn (bracketTok name) out →
      occursIn (bracketTok name)
        (ctx.foldl (fun o kv => listReplace o (bracketTok kv.1) kv.2) out) := by
  intro ctx
  induction ctx with
  | nil =>
    intro out _ h
    exact h
  | cons kv rest ih =>
    intro out hkv h
    show occursIn _
      (rest.foldl (fun o kv => listReplace o (bracketTok kv.1) kv.2)
        (listReplace out (bracketTok kv.1) kv.2))
    refine ih _ (fun p hp => hkv p (List.mem_cons_of_mem kv hp)) ?_
    exact listReplace_occursIn kv.2 hN (hkv kv (List.mem_cons_self kv rest)).2
      (fun hh => (hkv kv (List.mem_cons_self kv rest)).1 hh.symm) out h

/-- C5: the renderer is a total function; an absent template returns None and
an empty template returns itself unchanged; and for every context (with
well-formed placeholder names: bracket-free keys, and a bracket-free,
whitespace-free name unbound in the context and distinct from RANDNUM and
RANDSTR), every occurrence of the unresolved token [name] in the template is
still present verbatim in the rendered output. -/
theorem render_total_passthrough (ctx : List (List Char × List Char))
    (rnum : Nat) (rhex : List Char) :
    renderOpt none ctx rnum rhex = none ∧
    render [] ctx rnum rhex = [] ∧
    (∀ tmpl name, noBr name → noWSp name →
      name ≠ rnName → name ≠ rsName →
      (∀ kv ∈ ctx, kv.1 ≠ name ∧ noBr kv.1) →
      occursIn (bracketTok name) tmpl →
      occursIn (bracketTok name) (render tmpl ctx rnum rhex)) := by
  refine ⟨rfl, rfl, ?_⟩
  intro tmpl name hbr hws hrn hrs hkv hocc
  have hne : tmpl ≠ [] := by
    intro hh
    rw [hh] at hocc
    exact bracketTok_ne_nil name ((occursIn_nil_iff _).mp hocc)
  have hwsTok : noWSp (bracketTok name) := by
    intro c hc
    rcases List.mem_cons.mp hc with rfl | hc'
    · decide
    · rcases List.mem_append.mp hc' with h1 | h2
      · exact hws c h1
      · rw [List.mem_singleton.mp h2]
        decide
  simp only [render]
  rw [if_neg hne]
  refine normalizeWS_occursIn _ _ hwsTok (bracketTok_ne_nil name) ?_
  refine ite_listReplace_occursIn hbr (by decide) hrs _ _ _ ?_
  refine ite_listReplace_occursIn hbr (by decide) hrn _ _ _ ?_
  exact foldl_ctx_occursIn name hbr ctx tmpl hkv hocc

/-- Witness for C5: the token [NAME] of an unbound placeholder survives a
render with a bound QUERY placeholder, and an absent template stays None. -/
theorem render_total_passthrough_witness :
    renderOpt none [("QUERY".toList, "SELECT 1".toList)] 1234 [] = none ∧
    occursIn (bracketTok "NAME".toList)
      (render "x [NAME] y".toList [("QUERY".toList, "SELECT 1".toList)]
        1234 []) := by
  have h := render_total_passthrough [("QUERY".toList, "SELECT 1".toList)]
    1234 []
  refine ⟨h.1, ?_⟩
  refine h.2.2 "x [NAME] y".toList "NAME".toList (by decide) (by decide)
    (by decide) (by decide) (by decide) ?_
  exact (listContains_iff _ _).mp (by decide)

end SqlTool
